import Mathlib

/-!
Verification of the row-to-record mapping engine of `xls2json.py`.

The embedding models the functions `find_column_index`, `map_data` (with its
nested helpers `value` and `map_row`) and `map_formatted_data` (with its nested
helpers `clean_label`, `extract_labels`, `_map_formatted` and
`map_formatted_row`).  Worksheet cells are modelled as a closed union of the
cell-value kinds the code distinguishes (text, integer, date-time, empty);
Python dictionaries are modelled as association lists with Python's
insert-or-overwrite-in-place semantics; raised exceptions are modelled with
`Except String`.  Python's `str.format` is modelled for keyword fields
`\x7bname\x7d` and `\x7bname:spec\x7d` whose name is an ASCII word run: an
all-digit name is a positional reference and raises `IndexError` under
keyword-only arguments, as in Python; a brace opening a nested replacement
field inside a specifier is rejected by the model (Python accepts one nesting
level), and a non-empty specifier is rendered as the default stringification
of the value, whereas Python applies the specifier and may raise on an
invalid specifier/value combination.  Consequently every theorem asserting
that formatting or expansion succeeds is conditioned on the conservative
scanner `fmtNames`, which certifies only literal text, brace escapes and
specifier-free keyword fields — a class on which the model agrees with
Python exactly, rendered output included.  The word-character class `\w` of
the label pattern is modelled for ASCII text (Python's is Unicode-aware), so
the theorem about failed label matches carries an explicit ASCII
hypothesis.
-/

deriving instance DecidableEq for Except

/-- A `datetime.datetime` value: calendar fields plus microseconds. -/
structure PyDatetime where
  year : Nat
  month : Nat
  day : Nat
  hour : Nat
  minute : Nat
  second : Nat
  usec : Nat
deriving DecidableEq, Repr

/-- A worksheet cell value (`cell.value` in openpyxl): text, integer,
date-time or empty (`None`). -/
inductive CellValue where
  | text (s : String)
  | num (n : Int)
  | dt (d : PyDatetime)
  | empty
deriving DecidableEq, Repr

/-- The `unique_key` argument, typed `int | str | None` in the source. -/
inductive UK where
  | int (i : Int)
  | str (s : String)
  | nullv
deriving DecidableEq, Repr

/-- Zero-pad a natural number to at least `w` digits. -/
def padNat (w : Nat) (n : Nat) : String :=
  let s := toString n
  if s.length < w then String.mk (List.replicate (w - s.length) '0') ++ s else s

/-- The strftime pattern used by the source: `%Y-%m-%dT%H:%M:%S`. -/
def strftimeISO (d : PyDatetime) : String :=
  padNat 4 d.year ++ "-" ++ padNat 2 d.month ++ "-" ++ padNat 2 d.day ++ "T" ++
    padNat 2 d.hour ++ ":" ++ padNat 2 d.minute ++ ":" ++ padNat 2 d.second

/-- Python `str(datetime)`: `%Y-%m-%d %H:%M:%S` plus `.ffffff` when the
microsecond field is non-zero. -/
def pyStrDatetime (d : PyDatetime) : String :=
  padNat 4 d.year ++ "-" ++ padNat 2 d.month ++ "-" ++ padNat 2 d.day ++ " " ++
    padNat 2 d.hour ++ ":" ++ padNat 2 d.minute ++ ":" ++ padNat 2 d.second ++
    (if d.usec = 0 then "" else "." ++ padNat 6 d.usec)

/-- Python `str()` of a cell value, as used by default `str.format`
substitution. -/
def pyStr : CellValue → String
  | .text s => s
  | .num n => toString n
  | .dt d => pyStrDatetime d
  | .empty => "None"

/-- Python dict lookup on an association list (first entry with the key). -/
def dictLookup [DecidableEq κ] : List (κ × α) → κ → Option α
  | [], _ => none
  | p :: rest, k => if p.1 = k then some p.2 else dictLookup rest k

/-- Python dict insertion: overwrite the value in place if the key is present
(keeping the key's original position), else append. -/
def dictInsert [DecidableEq κ] : List (κ × α) → κ → α → List (κ × α)
  | [], k, v => [(k, v)]
  | p :: rest, k, v => if p.1 = k then (p.1, v) :: rest else p :: dictInsert rest k v

/-- Python sequence indexing `xs[i]` for an `int` index: negative indices count
from the end, out-of-range raises `IndexError`. -/
def pyIndex (xs : List α) (i : Int) : Except String α :=
  let j : Int := if i < 0 then i + xs.length else i
  if h : 0 ≤ j ∧ j.toNat < xs.length then .ok (xs.get ⟨j.toNat, h.2⟩)
  else .error "IndexError: list index out of range"

/-- Python `next()` on a fresh row iterator: the first element, or
`StopIteration`. -/
def pyNext : List α → Except String α
  | [] => .error "StopIteration"
  | x :: _ => .ok x

/-- The distinct elements of a list in the order each one is first
encountered. -/
def firstSeenAux [DecidableEq κ] (seen : List κ) : List κ → List κ
  | [] => []
  | k :: ks => if k ∈ seen then firstSeenAux seen ks else k :: firstSeenAux (k :: seen) ks

/-- First-seen-order list of the distinct elements of a list. -/
def firstSeen [DecidableEq κ] (ks : List κ) : List κ :=
  firstSeenAux [] ks

/-- The value paired with the last occurrence of a key in a pair list. -/
def lastLookup [DecidableEq κ] (ps : List (κ × α)) (k : κ) : Option α :=
  dictLookup ps.reverse k

/-- Word characters: the `\w` class of the source's label pattern restricted
to ASCII (alphanumerics and underscore).  Python's `re` on str patterns also
matches non-ASCII word characters such as accented letters; theorems that
rely on a FAILED match therefore restrict themselves to ASCII strings, where
this class is exactly `\w`. -/
def isWordChar (c : Char) : Bool :=
  c.isAlphanum || c = '_'

/-- Is every character of the string ASCII? -/
def allAscii (s : String) : Bool :=
  s.data.all (fun c => c.toNat < 128)

/-- A template (the JSON format file): a format string or a mapping from
output keys to nested templates.  Expanded records reuse this type, with
every leaf replaced by its substituted string. -/
inductive Template where
  | leaf (s : String)
  | node (entries : List (String × Template))
deriving Repr

/-- Decidable equality for templates. -/
def Template.deq : (a b : Template) → Decidable (a = b)
  | .leaf s, .leaf t =>
      if h : s = t then .isTrue (by rw [h]) else .isFalse (by simp [h])
  | .leaf _, .node _ => .isFalse (by simp)
  | .node _, .leaf _ => .isFalse (by simp)
  | .node es, .node fs =>
      match deqList es fs with
      | .isTrue h => .isTrue (by rw [h])
      | .isFalse h => .isFalse (by simp [h])
where deqList : (xs ys : List (String × Template)) → Decidable (xs = ys)
  | [], [] => .isTrue rfl
  | [], _ :: _ => .isFalse (by simp)
  | _ :: _, [] => .isFalse (by simp)
  | (k, t) :: xs, (l, u) :: ys =>
      if hk : k = l then
        match Template.deq t u with
        | .isTrue ht =>
          match deqList xs ys with
          | .isTrue hr => .isTrue (by rw [hk, ht, hr])
          | .isFalse hr => .isFalse (by simp [hr])
        | .isFalse ht => .isFalse (by simp [ht])
      else .isFalse (by simp [hk])

instance : DecidableEq Template := Template.deq

/-- Induction principle for the nested `Template` type, with a separate motive
for entry lists. -/
def templateInd (P : Template → Prop) (Q : List (String × Template) → Prop)
    (h1 : ∀ s, P (.leaf s)) (h2 : ∀ es, Q es → P (.node es))
    (h3 : Q []) (h4 : ∀ k t rest, P t → Q rest → Q ((k, t) :: rest)) :
    ∀ t, P t
  | .leaf s => h1 s
  | .node es => h2 es (go es)
where go : ∀ es, Q es
  | [] => h3
  | (k, t) :: rest => h4 k t rest (templateInd P Q h1 h2 h3 h4 t) (go rest)

/-- Entry-list version of `templateInd`. -/
def templateIndList (P : Template → Prop) (Q : List (String × Template) → Prop)
    (h1 : ∀ s, P (.leaf s)) (h2 : ∀ es, Q es → P (.node es))
    (h3 : Q []) (h4 : ∀ k t rest, P t → Q rest → Q ((k, t) :: rest)) :
    ∀ es, Q es :=
  templateInd.go P Q h1 h2 h3 h4

/-- Scanner states of the `str.format` model: literal text, just after an
opening brace, just after a closing brace, inside a field name, inside a
format specifier (the field name is retained, the specifier is rendered as
default stringification). -/
inductive FmtSt where
  | lit
  | openB
  | closeB
  | field (acc : List Char)
  | spec (acc : List Char)

/-- One-pass model of Python `str.format(**ctx)` over the character list:
doubled braces are literal; a field is a run of word characters optionally
followed by a colon and a specifier ending at the next closing brace.  A
field whose name is all digits is a positional reference, which raises
`IndexError` since only keyword arguments are passed; a field whose name is
absent from the context raises `KeyError` naming it; a brace inside a
specifier (a nested replacement field, which Python would interpret) is
rejected; stray or unterminated braces and non-keyword fields raise errors.
A non-empty specifier is rendered as the default stringification of the
value (Python applies it, and may raise on an invalid specifier/value
combination), so success-asserting theorems restrict to specifier-free
fields through `fmtNames`. -/
def fmtRun (ctx : List (String × CellValue)) : FmtSt → List Char → Except String (List Char)
  | .lit, [] => .ok []
  | .lit, c :: cs =>
      if c = '{' then fmtRun ctx .openB cs
      else if c = '}' then fmtRun ctx .closeB cs
      else (fmtRun ctx .lit cs).map (fun t => c :: t)
  | .openB, [] => .error "ValueError: Single brace encountered in format string"
  | .openB, c :: cs =>
      if c = '{' then (fmtRun ctx .lit cs).map (fun t => c :: t)
      else if isWordChar c then fmtRun ctx (.field [c]) cs
      else .error "IndexError: replacement field is not a plain keyword name"
  | .closeB, [] => .error "ValueError: Single brace encountered in format string"
  | .closeB, c :: cs =>
      if c = '}' then (fmtRun ctx .lit cs).map (fun t => c :: t)
      else .error "ValueError: Single brace encountered in format string"
  | .field _, [] => .error "ValueError: expected closing brace"
  | .field acc, c :: cs =>
      if c = '}' then
        if acc.all Char.isDigit then
          .error "IndexError: positional replacement field with keyword-only arguments"
        else
          match dictLookup ctx (String.mk acc) with
          | some v => (fmtRun ctx .lit cs).map (fun t => (pyStr v).data ++ t)
          | none => .error ("KeyError: " ++ String.mk acc)
      else if c = ':' then fmtRun ctx (.spec acc) cs
      else if isWordChar c then fmtRun ctx (.field (acc ++ [c])) cs
      else .error "ValueError: unsupported character in replacement field"
  | .spec _, [] => .error "ValueError: expected closing brace"
  | .spec acc, c :: cs =>
      if c = '}' then
        if acc.all Char.isDigit then
          .error "IndexError: positional replacement field with keyword-only arguments"
        else
          match dictLookup ctx (String.mk acc) with
          | some v => (fmtRun ctx .lit cs).map (fun t => (pyStr v).data ++ t)
          | none => .error ("KeyError: " ++ String.mk acc)
      else if c = '{' then
        .error "ValueError: unmatched brace in format spec"
      else fmtRun ctx (.spec acc) cs

/-- Python `s.format(**ctx)`. -/
def pyFormat (s : String) (ctx : List (String × CellValue)) : Except String String :=
  (fmtRun ctx .lit s.data).map String.mk

/-- Conservative format-string scanner: collects the placeholder names of a
string built only from literal text, brace escapes and specifier-free
keyword fields `\x7bname\x7d` whose name is a non-all-digit ASCII word run.
On this class the `fmtRun` model agrees with Python `str.format` exactly,
rendered output included; `none` marks every string outside the class
(including ones Python would accept, such as fields with specifiers or
non-ASCII names, on which the model is not fully faithful). -/
def fmtNames : FmtSt → List Char → Option (List String)
  | .lit, [] => some []
  | .lit, c :: cs =>
      if c = '{' then fmtNames .openB cs
      else if c = '}' then fmtNames .closeB cs
      else fmtNames .lit cs
  | .openB, [] => none
  | .openB, c :: cs =>
      if c = '{' then fmtNames .lit cs
      else if isWordChar c then fmtNames (.field [c]) cs
      else none
  | .closeB, [] => none
  | .closeB, c :: cs =>
      if c = '}' then fmtNames .lit cs
      else none
  | .field _, [] => none
  | .field acc, c :: cs =>
      if c = '}' then
        if acc.all Char.isDigit then none
        else (fmtNames .lit cs).map (fun ns => String.mk acc :: ns)
      else if isWordChar c then fmtNames (.field (acc ++ [c])) cs
      else none
  | .spec _, _ => none

/-- The placeholder names of a format string starting in literal state. -/
def formatNames (s : String) : Option (List String) :=
  fmtNames .lit s.data

/-- Core of `clean_label`: the anchored match
`re.match(pattern, label)` for the pattern of a leading brace, a greedy run of
word characters (group 1), an optional colon-specifier whose greedy
non-newline body must be followed by a closing brace, and a closing brace.
`some` returns group 1; `none` models a failed match, on which the source's
`match.group(1)` raises `AttributeError`.  The word class is `isWordChar`
(ASCII): on ASCII strings this is exactly the source pattern, and a `some`
result always agrees with the source; a `none` result is guaranteed faithful
only for ASCII strings, since Python's `\w` also matches non-ASCII word
characters. -/
def cleanLabelAux : List Char → Option String
  | [] => none
  | c :: rest =>
      if c = '{' then
        match rest.dropWhile isWordChar with
        | d :: ds =>
            if d = '}' then some (String.mk (rest.takeWhile isWordChar))
            else if d = ':' then
              if (ds.takeWhile (fun x => x ≠ '\n')).contains '}' then
                some (String.mk (rest.takeWhile isWordChar))
              else none
            else none
        | [] => none
      else none

/-- `clean_label` from the source: the first regex group of the anchored
placeholder match, raising `AttributeError` when the match fails. -/
def clean_label (label : String) : Except String String :=
  match cleanLabelAux label.data with
  | some s => .ok s
  | none => .error "AttributeError: NoneType object has no attribute group"

/-- Label collection for one template value: `clean_label` of a string leaf
(one label), or the labels of a nested mapping, as the source's
`extract_labels` collects them value by value. -/
def extractLabelsT : Template → Except String (List String)
  | .leaf s => (clean_label s).map (fun l => [l])
  | .node es => go es
where go : List (String × Template) → Except String (List String)
  | [] => .ok []
  | (_, t) :: rest =>
      (extractLabelsT t).bind (fun ls1 => (go rest).map (fun ls2 => ls1 ++ ls2))

/-- `extract_labels` from the source: walk the mapping's values in order,
appending `clean_label` of every string leaf and extending with the labels of
every nested mapping; the first raised exception propagates. -/
def extract_labels (mapping : List (String × Template)) : Except String (List String) :=
  extractLabelsT.go mapping

/-- `_map_formatted` from the source: format a string leaf with the row
context, or rebuild the mapping with every value expanded (the mapping's keys
are distinct, being a Python dict, so the dict comprehension is an
order-preserving map). -/
def mapFormattedTpl (ctx : List (String × CellValue)) : Template → Except String Template
  | .leaf s => (pyFormat s ctx).map Template.leaf
  | .node es => (go es).map Template.node
where go : List (String × Template) → Except String (List (String × Template))
  | [] => .ok []
  | (k, v) :: rest =>
      (mapFormattedTpl ctx v).bind (fun r => (go rest).map (fun rs => (k, r) :: rs))

/-- The nested `value` helper of `map_data`: date-times are rendered with
`strftime` and a fixed millisecond suffix, every other value passes through. -/
def value (cell : CellValue) : CellValue :=
  match cell with
  | .dt d => .text (strftimeISO d ++ ".000Z")
  | c => c

/-- Python `==` between a cell value and a unique-key value (`int`, `str` or
`None`); values of different kinds compare unequal. -/
def cellEqUK : CellValue → UK → Bool
  | .text s, .str t => s = t
  | .num n, .int m => n = m
  | .empty, .nullv => true
  | _, _ => false

/-- `find_column_index` from the source: the index of the first header cell
whose value equals the label, `StopIteration` when the generator is
exhausted. -/
def find_column_index (row : List CellValue) (label : UK) : Except String Nat :=
  match row.enum.find? (fun p => cellEqUK p.2 label) with
  | some p => .ok p.1
  | none => .error "StopIteration"

/-- A fallible Python dict comprehension: fold the rows into a dict, each row
contributing a key and a value, overwriting in place on repeated keys; the
first raised exception propagates. -/
def pyDictFold [DecidableEq κ] (f : α → Except String (κ × β)) :
    List α → List (κ × β) → Except String (List (κ × β))
  | [], d => .ok d
  | x :: rest, d => (f x).bind (fun p => pyDictFold f rest (dictInsert d p.1 p.2))

/-- The nested `map_row` helper of `map_data`: a dict comprehension pairing
each mapping label, by its position in the list, with the `value`-converted
cell at that position. -/
def map_row (mapping_labels : List String) (row : List CellValue) :
    Except String (List (String × CellValue)) :=
  pyDictFold (fun p => (pyIndex row (Int.ofNat p.1)).map (fun v => (p.2, value v)))
    mapping_labels.enum []

/-- The key and record of one data row in `map_data`: the raw cell at the
unique-key column paired with the `map_row` record. -/
def rowKeyRecordPlain (mapping_labels : List String) (uki : Int) (row : List CellValue) :
    Except String (CellValue × List (String × CellValue)) :=
  (pyIndex row uki).bind (fun key => (map_row mapping_labels row).map (fun r => (key, r)))

/-- The `unique_key_index` resolution of `map_data`: an `int` is used
directly, otherwise the index of the first header cell equal to the key. -/
def resolveUKPlain (rows : List (List CellValue)) : UK → Except String Int
  | .int i => .ok i
  | k => (pyNext rows).bind (fun header => (find_column_index header k).map Int.ofNat)

/-- `map_data` from the source: resolve the unique-key column (an `int` is
used directly, otherwise the first header cell equal to the key), then build
the dict keyed by the raw unique-key cell of every data row, valued by the
`map_row` record, and return the dict's values. -/
def map_data (rows : List (List CellValue)) (mapping_labels : List String) (unique_key : UK) :
    Except String (List (List (String × CellValue))) :=
  (resolveUKPlain rows unique_key).bind
  (fun uki =>
    (pyDictFold (rowKeyRecordPlain mapping_labels uki) (rows.drop 1) []).map
      (fun d => d.map Prod.snd))

/-- The `label_indexes` dict of `map_formatted_data`: scan the header row with
indices and record, for each cell whose value is one of the mapped labels,
that label with its column index; a later duplicate overwrites the index in
place.  Only text cells can equal a label string. -/
def mkLabelIndexes (header : List CellValue) (mapped_labels : List String) :
    List (String × Nat) :=
  header.enum.foldl
    (fun d p =>
      match p.2 with
      | .text s => if mapped_labels.contains s then dictInsert d s p.1 else d
      | _ => d) []

/-- The `unique_key_index` resolution of `map_formatted_data`: an `int` is
used directly, any other value is looked up in `label_indexes`, raising
`KeyError` when absent (`None` is never a key of `label_indexes`). -/
def lookupUK (label_indexes : List (String × Nat)) : UK → Except String Int
  | .int i => .ok i
  | .str s =>
      match dictLookup label_indexes s with
      | some i => .ok (Int.ofNat i)
      | none => .error ("KeyError: " ++ s)
  | .nullv => .error "KeyError: None"

/-- The `dict_row` of `map_formatted_row`: a dict comprehension pairing each
resolved label with the raw cell value at its column index. -/
def mkDictRow (label_indexes : List (String × Nat)) (row : List CellValue) :
    Except String (List (String × CellValue)) :=
  pyDictFold (fun p => (pyIndex row (Int.ofNat p.2)).map (fun v => (p.1, v)))
    label_indexes []

/-- The row context `dict(ChainMap(reserved, dict_row))`: the dict holds
`dict_row`'s entries in order, then the reserved entries `_row_number` and
`_now`; on a shared key the reserved (first `ChainMap` argument) value wins,
at the key's `dict_row` position. -/
def mkRowContext (row_number : Nat) (now : PyDatetime)
    (dict_row : List (String × CellValue)) : List (String × CellValue) :=
  dictInsert (dictInsert dict_row "_row_number" (.num (Int.ofNat row_number))) "_now" (.dt now)

/-- `map_formatted_row` from the source: build `dict_row` from the resolved
labels, overlay the runtime fields `_row_number` and `_now`, and expand the
mapping format against the resulting context. -/
def map_formatted_row (now : PyDatetime) (label_indexes : List (String × Nat))
    (row_number : Nat) (row : List CellValue) (mf : List (String × Template)) :
    Except String Template :=
  (mkDictRow label_indexes row).bind
    (fun dr => mapFormattedTpl (mkRowContext row_number now dr) (.node mf))

/-- The key and record of one enumerated data row in `map_formatted_data`:
the raw cell at the unique-key column paired with the expanded record. -/
def rowKeyRecord (now : PyDatetime) (label_indexes : List (String × Nat))
    (mf : List (String × Template)) (uki : Int) (p : Nat × List CellValue) :
    Except String (CellValue × Template) :=
  (pyIndex p.2 uki).bind
    (fun key => (map_formatted_row now label_indexes p.1 p.2 mf).map (fun r => (key, r)))

/-- `map_formatted_data` from the source: extract the template's labels,
resolve them against the header row, resolve the unique-key column, then
build the dict keyed by the raw unique-key cell of every enumerated data row
(`islice(enumerate(rows), 1, None)`, so the first data row has number 1),
valued by the expanded record, and return the dict's values.  The single
`now` parameter models the one `datetime.datetime.now()` capture at the top
of the function. -/
def map_formatted_data (rows : List (List CellValue)) (mf : List (String × Template))
    (unique_key : UK) (now : PyDatetime) : Except String (List Template) :=
  (extract_labels mf).bind (fun mapped_labels =>
    (pyNext rows).bind (fun header =>
      (lookupUK (mkLabelIndexes header mapped_labels) unique_key).bind (fun uki =>
        (pyDictFold (rowKeyRecord now (mkLabelIndexes header mapped_labels) mf uki)
            (rows.enum.drop 1) []).map
          (fun d => d.map Prod.snd))))

/-- The dict built by folding `dictInsert` over a list of pairs. -/
def dictOf [DecidableEq κ] (ps : List (κ × β)) : List (κ × β) :=
  ps.foldl (fun a p => dictInsert a p.1 p.2) []

/-- All-or-nothing traversal of a list with a fallible function, keeping
results in order. -/
def exMapM (f : α → Except String β) : List α → Except String (List β)
  | [] => .ok []
  | x :: rest => (f x).bind (fun y => (exMapM f rest).map (fun ys => y :: ys))

/-- Claim-side predicate, following the claim's wording: does the string
begin, at its first character, with a placeholder of the form
`\x7bname\x7d` or `\x7bname:spec\x7d` (name a run of word characters, the
specifier a non-newline run reaching a closing brace)?  Word characters are
the ASCII class `isWordChar`, so the predicate's `false` answer is faithful
to the source's Unicode-aware pattern only on ASCII strings; the theorem
using it carries an `allAscii` hypothesis. -/
def beginsWithPlaceholder (s : String) : Bool :=
  match s.data with
  | [] => false
  | c :: rest =>
      if c = '{' then
        match rest.dropWhile isWordChar with
        | d :: ds =>
            if d = '}' then true
            else if d = ':' then (ds.takeWhile (fun x => x ≠ '\n')).contains '}'
            else false
        | [] => false
      else false

/-- Does a template contain the given string as a leaf? -/
def hasLeaf (s : String) : Template → Bool
  | .leaf t => t = s
  | .node es => go es
where go : List (String × Template) → Bool
  | [] => false
  | (_, t) :: rest => hasLeaf s t || go rest

/-- Does a template entry list contain the given string as a leaf? -/
def hasLeafEntries (s : String) (es : List (String × Template)) : Bool :=
  hasLeaf.go s es

/-- The column index of the last header cell equal to the given text,
scanning from offset `n`: a later match takes priority over an earlier one. -/
def lastTextIdxFrom (s : String) : List CellValue → Nat → Option Nat
  | [], _ => none
  | c :: rest, n =>
      match lastTextIdxFrom s rest (n + 1) with
      | some i => some i
      | none => if c = .text s then some n else none

/-- The column index of the first header cell equal to the unique-key value,
scanning from offset `n`: an earlier match takes priority over a later one. -/
def firstMatchIdxFrom (uk : UK) : List CellValue → Nat → Option Nat
  | [], _ => none
  | c :: rest, n => if cellEqUK c uk then some n else firstMatchIdxFrom uk rest (n + 1)

/-- The placeholder names of every leaf of a template, in walk order, as the
conservative scanner `fmtNames` parses them; `none` marks a template some
leaf of which falls outside the scanner's specifier-free keyword-field
class (on which the format model is exactly Python's behaviour). -/
def tplNames : Template → Option (List String)
  | .leaf s => fmtNames .lit s.data
  | .node es => go es
where go : List (String × Template) → Option (List String)
  | [] => some []
  | (_, t) :: rest => (tplNames t).bind (fun a => (go rest).map (fun b => a ++ b))

/-- The shape of a template or record: the same key structure with every
leaf's string erased. -/
def shape : Template → Template
  | .leaf _ => .leaf ""
  | .node es => .node (go es)
where go : List (String × Template) → List (String × Template)
  | [] => []
  | (k, t) :: rest => (k, shape t) :: go rest

/-- Reducing `Except.bind` on a success. -/
theorem exBind_ok (a : α) (f : α → Except String β) : Except.bind (.ok a) f = f a := rfl

/-- Reducing `Except.bind` on an error. -/
theorem exBind_error (e : String) (f : α → Except String β) :
    Except.bind (Except.error e : Except String α) f = .error e := rfl

/-- Looking a key up after a dict insertion. -/
theorem dictLookup_insert [DecidableEq κ] (d : List (κ × α)) (k k2 : κ) (v : α) :
    dictLookup (dictInsert d k v) k2 = if k = k2 then some v else dictLookup d k2 := by
  induction d with
  | nil => simp [dictInsert, dictLookup]
  | cons p rest ih =>
      rcases p with ⟨a, b⟩
      by_cases h1 : a = k
      · subst h1
        by_cases h2 : a = k2 <;> simp [dictInsert, dictLookup, h2]
      · by_cases h2 : a = k2
        · subst h2
          have h3 : ¬ k = a := fun h => h1 h.symm
          simp [dictInsert, dictLookup, h1, h3]
        · simp [dictInsert, dictLookup, h1, h2, ih]

/-- The keys after a dict insertion: unchanged when present, appended when
new. -/
theorem dictInsert_keys [DecidableEq κ] (d : List (κ × α)) (k : κ) (v : α) :
    (dictInsert d k v).map Prod.fst =
      if k ∈ d.map Prod.fst then d.map Prod.fst else d.map Prod.fst ++ [k] := by
  induction d with
  | nil => simp [dictInsert]
  | cons p rest ih =>
      by_cases h1 : p.1 = k
      · simp [dictInsert, h1]
      · have : ¬ k = p.1 := fun h => h1 h.symm
        by_cases h2 : k ∈ rest.map Prod.fst <;> simp [dictInsert, h1, this, h2, ih]

/-- Inserting an absent key appends the pair. -/
theorem dictInsert_notMem [DecidableEq κ] (d : List (κ × α)) (k : κ) (v : α)
    (h : k ∉ d.map Prod.fst) : dictInsert d k v = d ++ [(k, v)] := by
  induction d with
  | nil => simp [dictInsert]
  | cons p rest ih =>
      simp only [List.map_cons, List.mem_cons] at h
      push_neg at h
      have h1 : ¬ p.1 = k := fun hh => h.1 hh.symm
      simp [dictInsert, h1, ih h.2]

/-- Inserting a present key into a dict in canonical map form replaces just
that key's value. -/
theorem dictInsert_map_form [DecidableEq κ] (ks : List κ) (g : κ → α) (k : κ) (v : α)
    (hnd : ks.Nodup) (hk : k ∈ ks) :
    dictInsert (ks.map (fun x => (x, g x))) k v =
      ks.map (fun x => (x, if x = k then v else g x)) := by
  induction ks with
  | nil => simp at hk
  | cons x rest ih =>
      rcases List.nodup_cons.mp hnd with ⟨hx, hrest⟩
      rcases List.mem_cons.mp hk with h | h
      · subst h
        simp only [List.map_cons, dictInsert, if_pos rfl, if_pos rfl]
        have : ∀ y ∈ rest, (y, g y) = (y, if y = k then v else g y) := by
          intro y hy
          have : ¬ y = k := fun hh => hx (hh ▸ hy)
          simp [this]
        simp [List.map_congr_left this]
      · have hxk : ¬ x = k := fun hh => hx (hh ▸ h)
        simp only [List.map_cons, dictInsert, if_neg hxk]
        simp [ih hrest h, hxk]

/-- Membership in `firstSeenAux`. -/
theorem mem_firstSeenAux [DecidableEq κ] (seen ks : List κ) (x : κ) :
    x ∈ firstSeenAux seen ks ↔ x ∈ ks ∧ x ∉ seen := by
  induction ks generalizing seen with
  | nil => simp [firstSeenAux]
  | cons k rest ih =>
      by_cases hk : k ∈ seen
      · simp only [firstSeenAux, if_pos hk, ih, List.mem_cons]
        constructor
        · rintro ⟨h1, h2⟩
          exact ⟨Or.inr h1, h2⟩
        · rintro ⟨h1 | h1, h2⟩
          · exact absurd (h1 ▸ hk) h2
          · exact ⟨h1, h2⟩
      · simp only [firstSeenAux, if_neg hk, List.mem_cons, ih]
        constructor
        · rintro (h | ⟨h1, h2⟩)
          · exact ⟨Or.inl h, h ▸ hk⟩
          · refine ⟨Or.inr h1, fun hs => h2 ?_⟩
            simp [hs]
        · rintro ⟨h1 | h1, h2⟩
          · exact Or.inl h1
          · by_cases hx : x = k
            · exact Or.inl hx
            · refine Or.inr ⟨h1, ?_⟩
              simp [hx, h2]

/-- `firstSeenAux` never repeats an element. -/
theorem firstSeenAux_nodup [DecidableEq κ] (seen ks : List κ) :
    (firstSeenAux seen ks).Nodup := by
  induction ks generalizing seen with
  | nil => simp [firstSeenAux]
  | cons k rest ih =>
      by_cases hk : k ∈ seen
      · simpa [firstSeenAux, hk] using ih seen
      · simp only [firstSeenAux, if_neg hk]
        refine List.nodup_cons.mpr ⟨?_, ih (k :: seen)⟩
        intro hmem
        exact ((mem_firstSeenAux _ _ _).mp hmem).2 (List.mem_cons_self _ _)

/-- Appending one element to the scanned list extends `firstSeenAux` exactly
when the element is new. -/
theorem firstSeenAux_snoc [DecidableEq κ] (seen ks : List κ) (k : κ) :
    firstSeenAux seen (ks ++ [k]) =
      firstSeenAux seen ks ++ (if k ∈ seen ∨ k ∈ ks then [] else [k]) := by
  induction ks generalizing seen with
  | nil => by_cases h : k ∈ seen <;> simp [firstSeenAux, h]
  | cons x rest ih =>
      rw [List.cons_append]
      by_cases hx : x ∈ seen <;>
        by_cases h1 : k ∈ seen <;>
          by_cases h2 : k = x <;>
            by_cases h3 : k ∈ rest <;>
              first
                | (subst h2; simp [firstSeenAux, hx, h1, h3, ih])
                | simp [firstSeenAux, hx, h1, h2, h3, ih]

/-- `firstSeen` of a list with one appended element. -/
theorem firstSeen_snoc [DecidableEq κ] (ks : List κ) (k : κ) :
    firstSeen (ks ++ [k]) = firstSeen ks ++ (if k ∈ ks then [] else [k]) := by
  have := firstSeenAux_snoc ([] : List κ) ks k
  simpa [firstSeen] using this

/-- Membership in `firstSeen`. -/
theorem mem_firstSeen [DecidableEq κ] (ks : List κ) (x : κ) :
    x ∈ firstSeen ks ↔ x ∈ ks := by
  simpa [firstSeen] using mem_firstSeenAux ([] : List κ) ks x

/-- `firstSeen` never repeats an element. -/
theorem firstSeen_nodup [DecidableEq κ] (ks : List κ) : (firstSeen ks).Nodup :=
  firstSeenAux_nodup [] ks

/-- `lastLookup` of a list with one appended pair. -/
theorem lastLookup_snoc [DecidableEq κ] (ps : List (κ × α)) (p : κ × α) (k : κ) :
    lastLookup (ps ++ [p]) k = if p.1 = k then some p.2 else lastLookup ps k := by
  simp [lastLookup, List.reverse_append, dictLookup]

/-- A fallible dict comprehension succeeds exactly when every row's key-value
computation succeeds, and then builds the `dictInsert` fold of the pairs. -/
theorem pyDictFold_eq_exMapM [DecidableEq κ] (f : α → Except String (κ × β)) (xs : List α)
    (d : List (κ × β)) :
    pyDictFold f xs d =
      (exMapM f xs).map (fun ps => ps.foldl (fun a p => dictInsert a p.1 p.2) d) := by
  induction xs generalizing d with
  | nil => simp [pyDictFold, exMapM, Except.map]
  | cons x rest ih =>
      cases hfx : f x with
      | error e =>
          simp [pyDictFold, exMapM, hfx, Except.map, Except.bind]
      | ok p =>
          simp only [pyDictFold, exMapM, hfx, exBind_ok, ih]
          cases hrest : exMapM f rest with
          | error e => simp [hrest, Except.map, Except.bind]
          | ok ps => simp [hrest, Except.map, Except.bind, List.foldl_cons]

/-- The `dictInsert` fold of a pair list in canonical form: its keys are the
distinct keys in first-seen order, each valued by the last value the list
pairs with that key. -/
theorem dictOf_eq_spec [DecidableEq κ] (ps : List (κ × β)) (dflt : β) :
    dictOf ps =
      (firstSeen (ps.map Prod.fst)).map (fun k => (k, (lastLookup ps k).getD dflt)) := by
  induction ps using List.reverseRecOn with
  | nil => simp [dictOf, firstSeen, firstSeenAux, lastLookup]
  | append_singleton ps p ih =>
      have hfold : dictOf (ps ++ [p]) = dictInsert (dictOf ps) p.1 p.2 := by
        simp [dictOf, List.foldl_append]
      rw [hfold, ih]
      rw [List.map_append, List.map_singleton, firstSeen_snoc]
      by_cases hp : p.1 ∈ ps.map Prod.fst
      · rw [if_pos hp, List.append_nil]
        rw [dictInsert_map_form _ _ _ _ (firstSeen_nodup _) ((mem_firstSeen _ _).mpr hp)]
        refine List.map_congr_left ?_
        intro k hkmem
        rw [lastLookup_snoc]
        by_cases hk : p.1 = k
        · simp [hk.symm ▸ hk, hk]
        · have : ¬ k = p.1 := fun h => hk h.symm
          simp [hk, this]
      · rw [if_neg hp]
        have hnotin : p.1 ∉
            (((firstSeen (ps.map Prod.fst)).map
              (fun k => (k, (lastLookup ps k).getD dflt))).map Prod.fst) := by
          intro hmem
          simp only [List.map_map] at hmem
          rcases List.mem_map.mp hmem with ⟨k, hk1, hk2⟩
          simp only [Function.comp] at hk2
          exact hp (hk2 ▸ (mem_firstSeen _ _).mp hk1)
        rw [dictInsert_notMem _ _ _ hnotin, List.map_append, List.map_singleton]
        congr 1
        · refine List.map_congr_left ?_
          intro k hkmem
          have hkps : k ∈ ps.map Prod.fst := (mem_firstSeen _ _).mp hkmem
          have hne : ¬ p.1 = k := fun h => hp (h ▸ hkps)
          rw [lastLookup_snoc, if_neg hne]
        · simp [lastLookup_snoc]

/-- Claim C1: with a unique key set, the Row Mapper (both the templated
`map_formatted_data` and the plain `map_data`) returns exactly one Record per
distinct raw cell value at the unique-key column: whenever a run succeeds,
the per-row (raw key cell, record) pairs all succeed, and the output is the
list of distinct key values in the order each was first encountered, each
mapped to the record of the last row bearing that key. -/
theorem claim_C1 :
    (∀ (rows : List (List CellValue)) (mf : List (String × Template)) (uk : UK)
        (now : PyDatetime) (out : List Template),
      map_formatted_data rows mf uk now = .ok out →
      ∃ (L : List String) (header : List CellValue) (uki : Int)
          (ps : List (CellValue × Template)),
        extract_labels mf = .ok L ∧
        pyNext rows = .ok header ∧
        lookupUK (mkLabelIndexes header L) uk = .ok uki ∧
        exMapM (rowKeyRecord now (mkLabelIndexes header L) mf uki) (rows.enum.drop 1) =
          .ok ps ∧
        (firstSeen (ps.map Prod.fst)).Nodup ∧
        out = (firstSeen (ps.map Prod.fst)).map
          (fun k => (lastLookup ps k).getD (Template.leaf ""))) ∧
    (∀ (rows : List (List CellValue)) (ml : List String) (uk : UK)
        (out : List (List (String × CellValue))),
      map_data rows ml uk = .ok out →
      ∃ (uki : Int) (ps : List (CellValue × List (String × CellValue))),
        resolveUKPlain rows uk = .ok uki ∧
        exMapM (rowKeyRecordPlain ml uki) (rows.drop 1) = .ok ps ∧
        (firstSeen (ps.map Prod.fst)).Nodup ∧
        out = (firstSeen (ps.map Prod.fst)).map
          (fun k => (lastLookup ps k).getD [])) := by
  constructor
  · intro rows mf uk now out h
    unfold map_formatted_data at h
    cases hL : extract_labels mf with
    | error e => rw [hL] at h; exact absurd h (by simp [Except.bind])
    | ok L =>
      rw [hL, exBind_ok] at h
      cases hH : pyNext rows with
      | error e => rw [hH] at h; exact absurd h (by simp [Except.bind])
      | ok header =>
        rw [hH, exBind_ok] at h
        cases hU : lookupUK (mkLabelIndexes header L) uk with
        | error e => rw [hU] at h; exact absurd h (by simp [Except.bind])
        | ok uki =>
          rw [hU, exBind_ok, pyDictFold_eq_exMapM] at h
          cases hM : exMapM (rowKeyRecord now (mkLabelIndexes header L) mf uki)
              (rows.enum.drop 1) with
          | error e => rw [hM] at h; exact absurd h (by simp [Except.map])
          | ok ps =>
            rw [hM] at h
            simp only [Except.map, Except.ok.injEq] at h
            refine ⟨L, header, uki, ps, rfl, rfl, by first | rfl | exact hU,
              by first | rfl | exact hM, firstSeen_nodup _, ?_⟩
            have hd : (ps.foldl (fun a p => dictInsert a p.1 p.2) []) = dictOf ps := rfl
            rw [← h, hd, dictOf_eq_spec ps (Template.leaf "")]
            simp [List.map_map, Function.comp]
  · intro rows ml uk out h
    unfold map_data at h
    cases hR : resolveUKPlain rows uk with
    | error e => rw [hR] at h; exact absurd h (by simp [Except.bind])
    | ok uki =>
      rw [hR, exBind_ok, pyDictFold_eq_exMapM] at h
      cases hM : exMapM (rowKeyRecordPlain ml uki) (rows.drop 1) with
      | error e => rw [hM] at h; exact absurd h (by simp [Except.map])
      | ok ps =>
        rw [hM] at h
        simp only [Except.map, Except.ok.injEq] at h
        refine ⟨uki, ps, rfl, by first | rfl | exact hM,
          firstSeen_nodup _, ?_⟩
        have hd : (ps.foldl (fun a p => dictInsert a p.1 p.2) []) = dictOf ps := rfl
        rw [← h, hd, dictOf_eq_spec ps []]
        simp [List.map_map, Function.comp]

/-- Witness for C1 at the spec's dedup-law input: key column values a, b, a
with payloads 1, 2, 3 yield the records of rows 3 and 2 in that order. -/
theorem claim_C1_witness :
    map_formatted_data
        [[.text "k", .text "p"], [.text "a", .num 1], [.text "b", .num 2],
          [.text "a", .num 3]]
        [("v", .leaf "{p}")] (.int 0) ⟨2024, 1, 2, 3, 4, 5, 0⟩ =
      .ok [.node [("v", .leaf "3")], .node [("v", .leaf "2")]] ∧
    (∃ (L : List String) (header : List CellValue) (uki : Int)
        (ps : List (CellValue × Template)),
      extract_labels [("v", Template.leaf "{p}")] = .ok L ∧
      pyNext [[CellValue.text "k", CellValue.text "p"], [.text "a", .num 1],
        [.text "b", .num 2], [.text "a", .num 3]] = .ok header ∧
      lookupUK (mkLabelIndexes header L) (.int 0) = .ok uki ∧
      exMapM (rowKeyRecord ⟨2024, 1, 2, 3, 4, 5, 0⟩ (mkLabelIndexes header L)
          [("v", Template.leaf "{p}")] uki)
        (([[CellValue.text "k", CellValue.text "p"], [.text "a", .num 1],
          [.text "b", .num 2], [.text "a", .num 3]] :
            List (List CellValue)).enum.drop 1) = .ok ps ∧
      (firstSeen (ps.map Prod.fst)).Nodup ∧
      [Template.node [("v", Template.leaf "3")], Template.node [("v", Template.leaf "2")]] =
        (firstSeen (ps.map Prod.fst)).map
          (fun k => (lastLookup ps k).getD (Template.leaf ""))) :=
  ⟨by decide, claim_C1.1
      [[.text "k", .text "p"], [.text "a", .num 1], [.text "b", .num 2], [.text "a", .num 3]]
      [("v", .leaf "{p}")] (.int 0) ⟨2024, 1, 2, 3, 4, 5, 0⟩
      [.node [("v", .leaf "3")], .node [("v", .leaf "2")]] (by decide)⟩

/-- Claim C5: the `_now` value placed in the Row Context is the run's single
timestamp: the context built for any row number and any `dict_row` (even one
trying to shadow the reserved key) maps the key `_now` to the `now` value that
`map_formatted_data` captures once and passes to every `map_formatted_row`
call. -/
theorem claim_C5 : ∀ (now : PyDatetime) (k : Nat) (dr : List (String × CellValue)),
    dictLookup (mkRowContext k now dr) "_now" = some (.dt now) := by
  intro now k dr
  simp [mkRowContext, dictLookup_insert]

/-- Claim C6: `map_formatted_data` processes `rows.enum.drop 1`, whose j-th
element pairs data row j (0-based) with the row number j+1, so row numbers
start at 1 and increase contiguously; every row context maps `_row_number` to
its row number, and expanding the placeholder `_row_number` renders that
number, so the first data row renders "1" and the second "2". -/
theorem claim_C6 :
    (∀ (rows : List (List CellValue)) (j : Nat) (r : List CellValue),
      rows[j + 1]? = some r → (rows.enum.drop 1)[j]? = some (j + 1, r)) ∧
    (∀ (k : Nat) (now : PyDatetime) (dr : List (String × CellValue)),
      dictLookup (mkRowContext k now dr) "_row_number" = some (.num (Int.ofNat k))) ∧
    (∀ (k : Nat) (now : PyDatetime) (dr : List (String × CellValue)),
      pyFormat "{_row_number}" (mkRowContext k now dr) =
        .ok (pyStr (.num (Int.ofNat k)))) := by
  refine ⟨?_, ?_, ?_⟩
  · intro rows j r h
    simp [List.getElem?_drop, List.getElem?_enum, h, Nat.add_comm]
  · intro k now dr
    simp [mkRowContext, dictLookup_insert]
  · intro k now dr
    have h : dictLookup (mkRowContext k now dr) "_row_number" = some (.num (Int.ofNat k)) := by
      simp [mkRowContext, dictLookup_insert]
    simp [pyFormat, fmtRun, isWordChar, h, Except.map, String.mk]

/-- Witness for C6: with two data rows, the enumerated data rows get numbers
1 and 2, and the placeholder `_row_number` renders "1" for the first and "2"
for the second. -/
theorem claim_C6_witness :
    (([[CellValue.text "h"], [.num 10], [.num 20]] :
        List (List CellValue)).enum.drop 1)[0]? = some (1, [.num 10]) ∧
    pyFormat "{_row_number}" (mkRowContext 1 ⟨2024, 1, 2, 3, 4, 5, 0⟩ []) = .ok "1" ∧
    pyFormat "{_row_number}" (mkRowContext 2 ⟨2024, 1, 2, 3, 4, 5, 0⟩ []) = .ok "2" :=
  ⟨claim_C6.1 [[CellValue.text "h"], [.num 10], [.num 20]] 0 [.num 10] (by decide),
   claim_C6.2.2 1 ⟨2024, 1, 2, 3, 4, 5, 0⟩ [],
   claim_C6.2.2 2 ⟨2024, 1, 2, 3, 4, 5, 0⟩ []⟩

/-- The anchored placeholder match of `clean_label` succeeds exactly on
strings that begin with a placeholder. -/
theorem cleanLabelAux_isSome_iff (s : String) :
    (cleanLabelAux s.data).isSome = beginsWithPlaceholder s := by
  unfold cleanLabelAux beginsWithPlaceholder
  cases s.data with
  | nil => rfl
  | cons c rest =>
      by_cases hc : c = '{'
      · simp only [if_pos hc]
        cases hdw : rest.dropWhile isWordChar with
        | nil => rfl
        | cons d ds =>
            by_cases hd : d = '}'
            · simp [hd]
            · by_cases hd2 : d = ':'
              · by_cases hcon : '}' ∈ List.takeWhile (fun x => !decide (x = '\n')) ds <;>
                  simp [hd, hd2, hcon]
              · simp [hd, hd2]
      · simp [hc]

/-- A string leaf that fails the placeholder match makes `clean_label` raise
`AttributeError`. -/
theorem clean_label_error_of_not_begins (s : String)
    (h : beginsWithPlaceholder s = false) :
    clean_label s = .error "AttributeError: NoneType object has no attribute group" := by
  have h2 : (cleanLabelAux s.data).isSome = false := by
    rw [cleanLabelAux_isSome_iff, h]
  unfold clean_label
  cases hc : cleanLabelAux s.data with
  | none => rfl
  | some l => rw [hc] at h2; simp at h2

/-- A bad leaf anywhere in a template makes `extractLabelsT` raise. -/
theorem extractLabelsT_error_of_bad_leaf (s : String)
    (hclean : ∃ e0, clean_label s = .error e0) :
    ∀ t, hasLeaf s t = true → ∃ e, extractLabelsT t = .error e := by
  refine templateInd (fun t => hasLeaf s t = true → ∃ e, extractLabelsT t = .error e)
    (fun es => hasLeaf.go s es = true → ∃ e, extractLabelsT.go es = .error e)
    ?_ ?_ ?_ ?_
  · intro t ht
    have : t = s := by simpa [hasLeaf] using ht
    subst this
    rcases hclean with ⟨e0, he0⟩
    exact ⟨e0, by simp [extractLabelsT, he0, Except.map]⟩
  · intro es hQ hn
    exact hQ (by simpa [hasLeaf] using hn)
  · intro h
    simp [hasLeaf.go] at h
  · intro k t rest hP hQ hcons
    have : hasLeaf s t = true ∨ hasLeaf.go s rest = true := by
      simpa [hasLeaf.go, Bool.or_eq_true] using hcons
    rcases this with h | h
    · rcases hP h with ⟨e, he⟩
      exact ⟨e, by simp [extractLabelsT.go, he, Except.bind]⟩
    · cases hval : extractLabelsT t with
      | error e => exact ⟨e, by simp [extractLabelsT.go, hval, Except.bind]⟩
      | ok ls =>
          rcases hQ h with ⟨e, he⟩
          exact ⟨e, by simp [extractLabelsT.go, hval, he, Except.bind, Except.map]⟩

/-- Claim C10: a template containing an ASCII string leaf that does not begin
with a placeholder makes label extraction raise (`clean_label`'s anchored
match fails and its group access raises `AttributeError`), so
`extract_labels` raises instead of returning a label list.  The `allAscii`
hypothesis restricts the statement to where the modelled word-character
class coincides with the source pattern's Unicode-aware `\w`. -/
theorem claim_C10 (mf : List (String × Template)) (s : String)
    (_hascii : allAscii s = true)
    (h1 : hasLeafEntries s mf = true) (h2 : beginsWithPlaceholder s = false) :
    clean_label s = .error "AttributeError: NoneType object has no attribute group" ∧
    ∃ e, extract_labels mf = .error e := by
  have hc := clean_label_error_of_not_begins s h2
  refine ⟨hc, ?_⟩
  have hmain := extractLabelsT_error_of_bad_leaf s ⟨_, hc⟩ (.node mf)
    (by simpa [hasLeaf, hasLeafEntries] using h1)
  rcases hmain with ⟨e, he⟩
  refine ⟨e, ?_⟩
  have : extractLabelsT (.node mf) = extractLabelsT.go mf := rfl
  rw [this] at he
  exact he

/-- Witness for C10: the ASCII leaf "x-\x7ba\x7d" has literal text before
its placeholder, so extracting labels from a template containing it
raises. -/
theorem claim_C10_witness :
    allAscii "x-{a}" = true ∧
    hasLeafEntries "x-{a}" [("k", Template.leaf "x-{a}")] = true ∧
    beginsWithPlaceholder "x-{a}" = false ∧
    (clean_label "x-{a}" = .error "AttributeError: NoneType object has no attribute group" ∧
      ∃ e, extract_labels [("k", Template.leaf "x-{a}")] = .error e) :=
  ⟨by decide, by decide, by decide,
    claim_C10 [("k", Template.leaf "x-{a}")] "x-{a}" (by decide) (by decide) (by decide)⟩

/-- Generalized scan lemma for `label_indexes`: folding the header scan step
over an offset enumeration updates the lookup of a label to its last matching
column, leaving other labels untouched. -/
theorem mkLabelIndexes_fold (L : List String) (s : String) :
    ∀ (hdr : List CellValue) (n : Nat) (d : List (String × Nat)),
      dictLookup
        ((hdr.enumFrom n).foldl
          (fun d p =>
            match p.2 with
            | .text t => if L.contains t then dictInsert d t p.1 else d
            | _ => d) d) s =
      if s ∈ L then
        (match lastTextIdxFrom s hdr n with
         | some i => some i
         | none => dictLookup d s)
      else dictLookup d s := by
  intro hdr
  induction hdr with
  | nil =>
      intro n d
      by_cases hs : s ∈ L <;> simp [List.enumFrom, lastTextIdxFrom, hs]
  | cons c rest ih =>
      intro n d
      simp only [List.enumFrom, List.foldl_cons]
      cases c with
      | text t =>
          have hd1 : (match (n, CellValue.text t).2 with
              | CellValue.text t2 => if L.contains t2 then dictInsert d t2 (n, CellValue.text t).1 else d
              | _ => d) = if t ∈ L then dictInsert d t n else d := by
            simp [List.contains]
          rw [hd1]
          by_cases htL : t ∈ L
          · rw [if_pos htL, ih (n + 1)]
            by_cases hts : t = s
            · subst hts
              have hlk : dictLookup (dictInsert d t n) t = some n := by
                rw [dictLookup_insert, if_pos rfl]
              simp only [if_pos htL, lastTextIdxFrom]
              cases lastTextIdxFrom t rest (n + 1) with
              | some i => simp
              | none => simp [hlk]
            · have hlk : dictLookup (dictInsert d t n) s = dictLookup d s := by
                rw [dictLookup_insert, if_neg hts]
              by_cases hs : s ∈ L
              · have hne : ¬ (CellValue.text t = CellValue.text s) := by simp [hts]
                simp only [if_pos hs, lastTextIdxFrom]
                cases lastTextIdxFrom s rest (n + 1) with
                | some i => simp
                | none => simp [hlk, hne]
              · simp [hs, hlk]
          · rw [if_neg htL, ih (n + 1)]
            by_cases hs : s ∈ L
            · have hts : ¬ t = s := fun h => htL (h ▸ hs)
              have hne : ¬ (CellValue.text t = CellValue.text s) := by simp [hts]
              simp only [if_pos hs, lastTextIdxFrom]
              cases lastTextIdxFrom s rest (n + 1) with
              | some i => simp
              | none => simp [hne]
            · simp [hs]
      | num m =>
          rw [show (match (n, CellValue.num m).2 with
              | CellValue.text t2 => if L.contains t2 then dictInsert d t2 (n, CellValue.num m).1 else d
              | _ => d) = d from rfl, ih (n + 1)]
          by_cases hs : s ∈ L
          · simp only [if_pos hs, lastTextIdxFrom]
            cases lastTextIdxFrom s rest (n + 1) with
            | some i => simp
            | none => simp
          · simp [hs]
      | dt dd =>
          rw [show (match (n, CellValue.dt dd).2 with
              | CellValue.text t2 => if L.contains t2 then dictInsert d t2 (n, CellValue.dt dd).1 else d
              | _ => d) = d from rfl, ih (n + 1)]
          by_cases hs : s ∈ L
          · simp only [if_pos hs, lastTextIdxFrom]
            cases lastTextIdxFrom s rest (n + 1) with
            | some i => simp
            | none => simp
          · simp [hs]
      | empty =>
          rw [show (match (n, CellValue.empty).2 with
              | CellValue.text t2 => if L.contains t2 then dictInsert d t2 (n, CellValue.empty).1 else d
              | _ => d) = d from rfl, ih (n + 1)]
          by_cases hs : s ∈ L
          · simp only [if_pos hs, lastTextIdxFrom]
            cases lastTextIdxFrom s rest (n + 1) with
            | some i => simp
            | none => simp
          · simp [hs]

/-- Looking a label up in `label_indexes` resolves to the last matching
header column. -/
theorem dictLookup_mkLabelIndexes (header : List CellValue) (L : List String) (s : String) :
    dictLookup (mkLabelIndexes header L) s =
      if s ∈ L then lastTextIdxFrom s header 0 else none := by
  have h := mkLabelIndexes_fold L s header 0 []
  have henum : header.enum = header.enumFrom 0 := rfl
  unfold mkLabelIndexes
  rw [henum, h]
  by_cases hs : s ∈ L
  · simp only [if_pos hs]
    cases lastTextIdxFrom s header 0 with
    | some i => simp
    | none => simp [dictLookup]
  · simp [hs, dictLookup]

/-- `find_column_index` resolves to the first matching header column. -/
theorem find_column_index_eq_first (header : List CellValue) (uk : UK) :
    find_column_index header uk =
      (match firstMatchIdxFrom uk header 0 with
       | some i => .ok i
       | none => .error "StopIteration") := by
  have haux : ∀ (hdr : List CellValue) (n : Nat),
      (match (hdr.enumFrom n).find? (fun q => cellEqUK q.2 uk) with
       | some p => some p.1
       | none => none) = firstMatchIdxFrom uk hdr n := by
    intro hdr
    induction hdr with
    | nil => intro n; simp [List.enumFrom, List.find?, firstMatchIdxFrom]
    | cons c rest ih =>
        intro n
        simp only [List.enumFrom, List.find?, firstMatchIdxFrom]
        by_cases hc : cellEqUK c uk
        · simp [hc]
        · simp only [hc, Bool.false_eq_true, if_false, cond_false]
          exact ih (n + 1)
  have h := haux header 0
  have henum : header.enum = header.enumFrom 0 := rfl
  unfold find_column_index
  rw [henum, ← h]
  cases (header.enumFrom 0).find? (fun q => cellEqUK q.2 uk) with
  | none => simp
  | some p => simp

/-- Counterexample to C7 as stated: with the duplicated header label k at
columns 0 and 1, the templated path's label resolution records the later
column 1, but the plain path's unique-key resolution (`find_column_index`)
returns the earlier column 0, so last-match-wins is not applied wherever a
label is resolved. -/
theorem claim_C7_cex :
    find_column_index [.text "k", .text "k"] (.str "k") = .ok 0 ∧
    dictLookup (mkLabelIndexes [.text "k", .text "k"] ["k"]) "k" = some 1 ∧
    lookupUK (mkLabelIndexes [.text "k", .text "k"] ["k"]) (.str "k") = .ok 1 ∧
    (0 : Nat) ≠ 1 := by
  refine ⟨by decide, by decide, by decide, by decide⟩

/-- Claim C7, amended: in the templated path, label resolution (and hence
unique-key resolution through `label_indexes`) is last-match-wins: a label
looks up to the index of the last header cell bearing it.  In the plain
path, `find_column_index` (which resolves the unique-key label) is
first-match-wins. -/
theorem claim_C7 :
    (∀ (header : List CellValue) (L : List String) (s : String),
      dictLookup (mkLabelIndexes header L) s =
        if s ∈ L then lastTextIdxFrom s header 0 else none) ∧
    (∀ (header : List CellValue) (uk : UK),
      find_column_index header uk =
        (match firstMatchIdxFrom uk header 0 with
         | some i => .ok i
         | none => .error "StopIteration")) :=
  ⟨dictLookup_mkLabelIndexes, find_column_index_eq_first⟩

/-- With no empty cell in the header, the plain unique-key scan for `None`
finds no match. -/
theorem firstMatchIdxFrom_nullv_none (hdr : List CellValue) (h : CellValue.empty ∉ hdr) :
    ∀ n, firstMatchIdxFrom .nullv hdr n = none := by
  induction hdr with
  | nil => intro n; simp [firstMatchIdxFrom]
  | cons c rest ih =>
      intro n
      have hc : cellEqUK c .nullv = false := by
        cases c with
        | empty => exact absurd (List.mem_cons_self _ _) h
        | text s => rfl
        | num m => rfl
        | dt d => rfl
      simp only [firstMatchIdxFrom, hc, Bool.false_eq_true, if_false]
      exact ih (fun hm => h (List.mem_cons_of_mem _ hm)) (n + 1)

/-- Counterexample to C3 as stated: with `unique_key` unset (None) and two
data rows, the templated path raises `KeyError: None` and the plain path
raises `StopIteration` — neither returns one Record per data row. -/
theorem claim_C3_cex :
    map_formatted_data [[.text "id"], [.num 1], [.num 2]] [("out", .leaf "{id}")]
        .nullv ⟨2024, 1, 2, 3, 4, 5, 0⟩ = .error "KeyError: None" ∧
    map_data [[.text "id"], [.num 1], [.num 2]] ["id"] .nullv = .error "StopIteration" := by
  refine ⟨by decide, by decide⟩

/-- Claim C3, amended: there is no no-deduplication mode.  With `unique_key`
as None, `map_formatted_data` always raises (None is looked up in
`label_indexes`, whose keys are strings, after any earlier failure), and
`map_data` raises `StopIteration` whenever the header has no empty cell
(`find_column_index` searches the header for a cell equal to None). -/
theorem claim_C3 :
    (∀ (rows : List (List CellValue)) (mf : List (String × Template)) (now : PyDatetime),
      ∃ e, map_formatted_data rows mf .nullv now = .error e) ∧
    (∀ (header : List CellValue) (dataRows : List (List CellValue)) (ml : List String),
      CellValue.empty ∉ header →
      ∃ e, map_data (header :: dataRows) ml .nullv = .error e) := by
  constructor
  · intro rows mf now
    unfold map_formatted_data
    cases hL : extract_labels mf with
    | error e => exact ⟨e, by simp [Except.bind]⟩
    | ok L =>
        cases hH : pyNext rows with
        | error e => exact ⟨e, by simp [Except.bind]⟩
        | ok header =>
            exact ⟨"KeyError: None", by simp [Except.bind, lookupUK]⟩
  · intro header dataRows ml h
    unfold map_data resolveUKPlain
    have hfind : find_column_index header .nullv = .error "StopIteration" := by
      rw [find_column_index_eq_first, firstMatchIdxFrom_nullv_none header h 0]
    exact ⟨"StopIteration", by simp [pyNext, hfind, Except.bind, Except.map]⟩

/-- Witness for the amended C3 at a concrete header with no empty cell. -/
theorem claim_C3_witness :
    CellValue.empty ∉ [CellValue.text "id", CellValue.text "email"] ∧
    ∃ e, map_data [[CellValue.text "id", CellValue.text "email"], [.num 1, .text "a"]]
        ["id", "email"] .nullv = .error e :=
  ⟨by decide, claim_C3.2 [CellValue.text "id", CellValue.text "email"]
    [[.num 1, .text "a"]] ["id", "email"] (by decide)⟩

/-- A dict comprehension leaves the lookup of a key untouched when no row
contributes that key. -/
theorem pyDictFold_lookup_other [DecidableEq κ] (f : α → Except String (κ × β)) :
    ∀ (xs : List α) (d0 d : List (κ × β)) (k : κ),
      pyDictFold f xs d0 = .ok d →
      (∀ x ∈ xs, ∀ p, f x = .ok p → p.1 ≠ k) →
      dictLookup d k = dictLookup d0 k := by
  intro xs
  induction xs with
  | nil =>
      intro d0 d k h hk
      simp only [pyDictFold, Except.ok.injEq] at h
      rw [h]
  | cons x rest ih =>
      intro d0 d k h hk
      cases hfx : f x with
      | error e => rw [pyDictFold, hfx, exBind_error] at h; exact absurd h (by simp)
      | ok p =>
          rw [pyDictFold, hfx, exBind_ok] at h
          have h1 := ih (dictInsert d0 p.1 p.2) d k h
            (fun y hy q hq => hk y (List.mem_cons_of_mem _ hy) q hq)
          rw [h1, dictLookup_insert,
            if_neg (hk x (List.mem_cons_self _ _) p hfx)]

/-- When `dict_row` building succeeds and the label index map has distinct
keys, each resolved label looks up, in `dict_row`, to the raw cell value at
its column (no conversion is applied). -/
theorem mkDictRow_lookup (row : List CellValue) :
    ∀ (li : List (String × Nat)) (dr : List (String × CellValue)) (s : String) (i : Nat),
      (li.map Prod.fst).Nodup →
      mkDictRow li row = .ok dr →
      dictLookup li s = some i →
      ∃ v, pyIndex row (Int.ofNat i) = .ok v ∧ dictLookup dr s = some v := by
  have aux : ∀ (li : List (String × Nat)) (d0 dr : List (String × CellValue))
      (s : String) (i : Nat),
      (li.map Prod.fst).Nodup →
      pyDictFold (fun p => (pyIndex row (Int.ofNat p.2)).map (fun v => (p.1, v))) li d0 =
        .ok dr →
      dictLookup li s = some i →
      ∃ v, pyIndex row (Int.ofNat i) = .ok v ∧ dictLookup dr s = some v := by
    intro li
    induction li with
    | nil => intro d0 dr s i hnd h hlk; simp [dictLookup] at hlk
    | cons q rest ih =>
        intro d0 dr s i hnd h hlk
        rcases q with ⟨a, j⟩
        cases hpi : pyIndex row (Int.ofNat j) with
        | error e =>
            rw [pyDictFold, show ((pyIndex row (Int.ofNat j)).map
              (fun v => (a, v)) : Except String (String × CellValue)) =
                .error e from by rw [hpi]; rfl, exBind_error] at h
            exact absurd h (by simp)
        | ok v =>
            rw [pyDictFold, show ((pyIndex row (Int.ofNat j)).map
              (fun v => (a, v)) : Except String (String × CellValue)) =
                .ok (a, v) from by rw [hpi]; rfl, exBind_ok] at h
            rcases List.nodup_cons.mp (by simpa only [List.map_cons] using hnd) with
              ⟨ha, hrest⟩
            by_cases has : a = s
            · subst has
              have hij : i = j := by
                simp [dictLookup] at hlk
                omega
              subst hij
              refine ⟨v, hpi, ?_⟩
              have hother := pyDictFold_lookup_other
                (fun p => (pyIndex row (Int.ofNat p.2)).map (fun v => (p.1, v)))
                rest (dictInsert d0 a v) dr a h ?_
              · rw [hother, dictLookup_insert, if_pos rfl]
              · intro x hx p hp
                have hp2 : Except.map (fun v => (x.1, v)) (pyIndex row (Int.ofNat x.2)) =
                    Except.ok p := hp
                have hfst : p.1 = x.1 := by
                  cases hpx : pyIndex row (Int.ofNat x.2) with
                  | error e => rw [hpx] at hp2; exact absurd hp2 (by simp [Except.map])
                  | ok w =>
                      rw [hpx] at hp2
                      simp only [Except.map, Except.ok.injEq] at hp2
                      rw [← hp2]
                rw [hfst]
                intro hx1
                exact ha (hx1 ▸ List.mem_map_of_mem Prod.fst hx)
            · have hlk2 : dictLookup rest s = some i := by
                simpa [dictLookup, has] using hlk
              exact ih (dictInsert d0 a v) dr s i hrest h hlk2
  intro li dr s i hnd h hlk
  exact aux li [] dr s i hnd h hlk

/-- Reserved keys aside, the row context looks up exactly as `dict_row`. -/
theorem mkRowContext_lookup_other (k : Nat) (now : PyDatetime)
    (dr : List (String × CellValue)) (s : String)
    (h1 : s ≠ "_row_number") (h2 : s ≠ "_now") :
    dictLookup (mkRowContext k now dr) s = dictLookup dr s := by
  rw [mkRowContext, dictLookup_insert, if_neg (fun h => h2 h.symm),
    dictLookup_insert, if_neg (fun h => h1 h.symm)]

/-- Counterexample to C8 as stated: for the date-time cell 2023-01-02
03:04:05, the plain mapping-labels path substitutes the normalized
"2023-01-02T03:04:05.000Z", but the templated path substitutes the raw
`str(datetime)` rendering "2023-01-02 03:04:05", which is not the ISO string
with milliseconds. -/
theorem claim_C8_cex :
    map_data [[.text "d"], [.dt ⟨2023, 1, 2, 3, 4, 5, 0⟩]] ["d"] (.int 0) =
      .ok [[("d", .text "2023-01-02T03:04:05.000Z")]] ∧
    map_formatted_data [[.text "d"], [.dt ⟨2023, 1, 2, 3, 4, 5, 0⟩]]
        [("t", .leaf "{d}")] (.int 0) ⟨2024, 1, 2, 3, 4, 5, 0⟩ =
      .ok [.node [("t", .leaf "2023-01-02 03:04:05")]] ∧
    ("2023-01-02 03:04:05" : String) ≠ "2023-01-02T03:04:05.000Z" := by
  refine ⟨by decide, by decide, by decide⟩

/-- Claim C8, amended: the plain path's `value` helper normalizes date-time
cells to the fixed strftime-plus-milliseconds string and passes every other
cell through unchanged, while the templated path's row context holds the raw
cell value for every resolved label — date-times included — so only the
plain mapping-labels path normalizes date-times. -/
theorem claim_C8 :
    (∀ d : PyDatetime, value (.dt d) = .text (strftimeISO d ++ ".000Z")) ∧
    (∀ s, value (.text s) = .text s) ∧ (∀ n, value (.num n) = .num n) ∧
    value .empty = .empty ∧
    (∀ (row : List CellValue) (li : List (String × Nat))
        (dr : List (String × CellValue)) (k : Nat) (now : PyDatetime)
        (s : String) (i : Nat),
      (li.map Prod.fst).Nodup →
      mkDictRow li row = .ok dr →
      dictLookup li s = some i →
      s ≠ "_row_number" → s ≠ "_now" →
      ∃ v, pyIndex row (Int.ofNat i) = .ok v ∧
        dictLookup (mkRowContext k now dr) s = some v) := by
  refine ⟨fun d => rfl, fun s => rfl, fun n => rfl, rfl, ?_⟩
  intro row li dr k now s i hnd hdr hlk h1 h2
  rcases mkDictRow_lookup row li dr s i hnd hdr hlk with ⟨v, hv1, hv2⟩
  exact ⟨v, hv1, by rw [mkRowContext_lookup_other k now dr s h1 h2]; exact hv2⟩

/-- Witness for the amended C8: a date-time cell reaches the templated row
context raw. -/
theorem claim_C8_witness :
    ∃ v, pyIndex [CellValue.dt ⟨2023, 1, 2, 3, 4, 5, 0⟩] (Int.ofNat 0) = .ok v ∧
      dictLookup
        (mkRowContext 1 ⟨2024, 1, 2, 3, 4, 5, 0⟩
          [("d", CellValue.dt ⟨2023, 1, 2, 3, 4, 5, 0⟩)]) "d" = some v :=
  claim_C8.2.2.2.2 [CellValue.dt ⟨2023, 1, 2, 3, 4, 5, 0⟩] [("d", 0)]
    [("d", CellValue.dt ⟨2023, 1, 2, 3, 4, 5, 0⟩)] 1 ⟨2024, 1, 2, 3, 4, 5, 0⟩ "d" 0
    (by decide) (by decide) (by decide) (by decide) (by decide)

/-- Positional law of `map_row`: with distinct mapping labels, a successful
record maps the label at list position i to the `value`-converted cell at
column i — the header row plays no part. -/
theorem map_row_lookup (row : List CellValue) :
    ∀ (ml : List String) (rec : List (String × CellValue)) (i : Nat) (s : String),
      ml.Nodup → map_row ml row = .ok rec → (i, s) ∈ ml.enum →
      ∃ v, pyIndex row (Int.ofNat i) = .ok v ∧ dictLookup rec s = some (value v) := by
  have aux : ∀ (xs : List (Nat × String)) (d0 rec : List (String × CellValue))
      (i : Nat) (s : String),
      (xs.map Prod.snd).Nodup →
      pyDictFold (fun p => (pyIndex row (Int.ofNat p.1)).map (fun v => (p.2, value v)))
        xs d0 = .ok rec →
      (i, s) ∈ xs →
      ∃ v, pyIndex row (Int.ofNat i) = .ok v ∧ dictLookup rec s = some (value v) := by
    intro xs
    induction xs with
    | nil => intro d0 rec i s hnd h hmem; simp at hmem
    | cons q rest ih =>
        intro d0 rec i s hnd h hmem
        rcases q with ⟨j, a⟩
        cases hpi : pyIndex row (Int.ofNat j) with
        | error e =>
            rw [pyDictFold, show ((pyIndex row (Int.ofNat j)).map
              (fun v => (a, value v)) : Except String (String × CellValue)) =
                .error e from by rw [hpi]; rfl, exBind_error] at h
            exact absurd h (by simp)
        | ok v =>
            rw [pyDictFold, show ((pyIndex row (Int.ofNat j)).map
              (fun v => (a, value v)) : Except String (String × CellValue)) =
                .ok (a, value v) from by rw [hpi]; rfl, exBind_ok] at h
            rcases List.nodup_cons.mp (by simpa only [List.map_cons] using hnd) with
              ⟨ha, hrest⟩
            rcases List.mem_cons.mp hmem with hq | hq
            · have hji : j = i ∧ a = s := by
                constructor
                · exact (Prod.mk.injEq _ _ _ _ ▸ hq.symm).1
                · exact (Prod.mk.injEq _ _ _ _ ▸ hq.symm).2
              rcases hji with ⟨hj, hassub⟩
              subst hj
              subst hassub
              refine ⟨v, hpi, ?_⟩
              have hother := pyDictFold_lookup_other
                (fun p => (pyIndex row (Int.ofNat p.1)).map (fun v => (p.2, value v)))
                rest (dictInsert d0 a (value v)) rec a h ?_
              · rw [hother, dictLookup_insert, if_pos rfl]
              · intro x hx p hp
                have hp2 : Except.map (fun v => (x.2, value v)) (pyIndex row (Int.ofNat x.1)) =
                    Except.ok p := hp
                have hfst : p.1 = x.2 := by
                  cases hpx : pyIndex row (Int.ofNat x.1) with
                  | error e => rw [hpx] at hp2; exact absurd hp2 (by simp [Except.map])
                  | ok w =>
                      rw [hpx] at hp2
                      simp only [Except.map, Except.ok.injEq] at hp2
                      rw [← hp2]
                rw [hfst]
                intro hx1
                exact ha (hx1 ▸ List.mem_map_of_mem Prod.snd hx)
            · exact ih (dictInsert d0 a (value v)) rec i s hrest h hq
  intro ml rec i s hnd h hmem
  have hnd2 : (ml.enum.map Prod.snd).Nodup := by
    rw [List.enum_map_snd]
    exact hnd
  exact aux ml.enum [] rec i s hnd2 h hmem

/-- Counterexample to C9 as stated: header a, b with labels listed as b, a
and a data row 1, 2.  The claim predicts the record's value at label a is the
cell under the header cell a, namely 1; the plain path instead assigns
positionally and yields 2, and it also differs from the identity-templated
record, which carries the stringified "1"/"2". -/
theorem claim_C9_cex :
    map_data [[.text "a", .text "b"], [.num 1, .num 2]] ["b", "a"] (.int 0) =
      .ok [[("b", .num 1), ("a", .num 2)]] ∧
    map_formatted_data [[.text "a", .text "b"], [.num 1, .num 2]]
        [("b", .leaf "{b}"), ("a", .leaf "{a}")] (.int 0) ⟨2024, 1, 2, 3, 4, 5, 0⟩ =
      .ok [.node [("b", .leaf "2"), ("a", .leaf "1")]] ∧
    dictLookup [("b", CellValue.num 1), ("a", CellValue.num 2)] "a" = some (.num 2) ∧
    (CellValue.num 2) ≠ (CellValue.num 1) := by
  refine ⟨by decide, by decide, by decide, by decide⟩

/-- Claim C9, amended: the plain mapping-labels mode is positional, not an
identity-template run: a successful record pairs the label at list position i
with the `value`-converted raw cell at column i, regardless of where (or
whether) that label occurs in the header row; it therefore agrees with the
templated identity run only when the label order matches the column order,
and even then the templated run stringifies while the plain run keeps raw
values. -/
theorem claim_C9 (ml : List String) (row : List CellValue)
    (rec : List (String × CellValue)) (i : Nat) (s : String)
    (hnd : ml.Nodup) (h : map_row ml row = .ok rec) (hmem : (i, s) ∈ ml.enum) :
    ∃ v, pyIndex row (Int.ofNat i) = .ok v ∧ dictLookup rec s = some (value v) :=
  map_row_lookup row ml rec i s hnd h hmem

/-- Witness for the amended C9: labels b, a over row 1, 2 put cell 2 at
label a (position 1), not the cell under the header cell a. -/
theorem claim_C9_witness :
    ∃ v, pyIndex [CellValue.num 1, CellValue.num 2] (Int.ofNat 1) = .ok v ∧
      dictLookup [("b", CellValue.num 1), ("a", CellValue.num 2)] "a" = some (value v) :=
  claim_C9 ["b", "a"] [CellValue.num 1, CellValue.num 2]
    [("b", CellValue.num 1), ("a", CellValue.num 2)] 1 "a"
    (by decide) (by decide) (by decide)

/-- When the conservative scanner accepts a format string and every
collected placeholder name is present in the context, formatting succeeds. -/
theorem fmtNames_ok (ctx : List (String × CellValue)) :
    ∀ (cs : List Char) (st : FmtSt) (ns : List String),
      fmtNames st cs = some ns →
      (∀ n ∈ ns, (dictLookup ctx n).isSome) →
      ∃ out, fmtRun ctx st cs = .ok out := by
  intro cs
  induction cs with
  | nil =>
      intro st ns h hctx
      cases st with
      | lit => exact ⟨[], rfl⟩
      | openB => simp [fmtNames] at h
      | closeB => simp [fmtNames] at h
      | field acc => simp [fmtNames] at h
      | spec acc => simp [fmtNames] at h
  | cons c cs ih =>
      intro st ns h hctx
      cases st with
      | lit =>
          by_cases h1 : c = '{'
          · simp only [fmtNames, if_pos h1] at h
            rcases ih .openB ns h hctx with ⟨out, hout⟩
            refine ⟨out, ?_⟩
            simp only [fmtRun, if_pos h1]
            exact hout
          · by_cases h2 : c = '}'
            · simp only [fmtNames, if_pos h2, if_neg h1] at h
              rcases ih .closeB ns h hctx with ⟨out, hout⟩
              refine ⟨out, ?_⟩
              simp only [fmtRun, if_pos h2, if_neg h1]
              exact hout
            · simp only [fmtNames, if_neg h1, if_neg h2] at h
              rcases ih .lit ns h hctx with ⟨out, hout⟩
              refine ⟨c :: out, ?_⟩
              simp only [fmtRun, if_neg h1, if_neg h2, hout]
              rfl
      | openB =>
          by_cases h1 : c = '{'
          · simp only [fmtNames, if_pos h1] at h
            rcases ih .lit ns h hctx with ⟨out, hout⟩
            refine ⟨c :: out, ?_⟩
            simp only [fmtRun, if_pos h1, hout]
            rfl
          · by_cases h2 : isWordChar c
            · simp only [fmtNames, if_neg h1, if_pos h2] at h
              rcases ih (.field [c]) ns h hctx with ⟨out, hout⟩
              refine ⟨out, ?_⟩
              simp only [fmtRun, if_neg h1, if_pos h2]
              exact hout
            · simp only [fmtNames, if_neg h1, if_neg h2] at h
              exact absurd h (by simp)
      | closeB =>
          by_cases h1 : c = '}'
          · simp only [fmtNames, if_pos h1] at h
            rcases ih .lit ns h hctx with ⟨out, hout⟩
            refine ⟨c :: out, ?_⟩
            simp only [fmtRun, if_pos h1, hout]
            rfl
          · simp only [fmtNames, if_neg h1] at h
            exact absurd h (by simp)
      | field acc =>
          by_cases h1 : c = '}'
          · simp only [fmtNames, if_pos h1] at h
            by_cases hdig : acc.all Char.isDigit = true
            · rw [if_pos hdig] at h
              exact absurd h (by simp)
            · rw [if_neg hdig] at h
              cases hrec : fmtNames .lit cs with
              | none => rw [hrec] at h; simp at h
              | some ns2 =>
                  rw [hrec] at h
                  simp only [Option.map_some', Option.some.injEq] at h
                  subst h
                  have hhead : (dictLookup ctx (String.mk acc)).isSome :=
                    hctx _ (List.mem_cons_self _ _)
                  rcases Option.isSome_iff_exists.mp hhead with ⟨v, hv⟩
                  rcases ih .lit ns2 hrec
                    (fun n hn => hctx n (List.mem_cons_of_mem _ hn)) with ⟨out, hout⟩
                  refine ⟨(pyStr v).data ++ out, ?_⟩
                  simp only [fmtRun, if_pos h1, if_neg hdig, hv, hout]
                  rfl
          · by_cases h3 : isWordChar c
            · have h2 : ¬ c = ':' := by
                intro hh
                subst hh
                exact absurd h3 (by decide)
              simp only [fmtNames, if_neg h1, if_pos h3] at h
              rcases ih (.field (acc ++ [c])) ns h hctx with ⟨out, hout⟩
              refine ⟨out, ?_⟩
              simp only [fmtRun, if_neg h1, if_neg h2, if_pos h3]
              exact hout
            · simp only [fmtNames, if_neg h1, if_neg h3] at h
              exact absurd h (by simp)
      | spec acc => simp [fmtNames] at h

/-- Claim C4: expanding a mapping-shaped template whose leaves the
conservative scanner accepts (literal text, brace escapes and specifier-free
keyword fields, the class on which the format model coincides with Python)
against a context containing every placeholder name succeeds and is
structure-preserving: the record has exactly the template's keys in the
template's order and nesting, with only the leaf strings replaced. -/
theorem claim_C4 (es : List (String × Template)) (ctx : List (String × CellValue))
    (ns : List String)
    (hn : tplNames (.node es) = some ns)
    (hctx : ∀ n ∈ ns, (dictLookup ctx n).isSome) :
    ∃ r, mapFormattedTpl ctx (.node es) = .ok r ∧ shape r = shape (.node es) := by
  have main : ∀ t : Template, ∀ ns2, tplNames t = some ns2 →
      (∀ n ∈ ns2, (dictLookup ctx n).isSome) →
      ∃ r, mapFormattedTpl ctx t = .ok r ∧ shape r = shape t := by
    refine templateInd
      (fun t => ∀ ns2, tplNames t = some ns2 → (∀ n ∈ ns2, (dictLookup ctx n).isSome) →
        ∃ r, mapFormattedTpl ctx t = .ok r ∧ shape r = shape t)
      (fun es2 => ∀ ns2, tplNames.go es2 = some ns2 →
        (∀ n ∈ ns2, (dictLookup ctx n).isSome) →
        ∃ rs, mapFormattedTpl.go ctx es2 = .ok rs ∧ shape.go rs = shape.go es2)
      ?_ ?_ ?_ ?_
    · intro s ns2 hs hc
      rcases fmtNames_ok ctx s.data .lit ns2 hs hc with ⟨out, hout⟩
      refine ⟨.leaf (String.mk out), ?_, rfl⟩
      simp only [mapFormattedTpl, pyFormat, hout]
      rfl
    · intro es2 hQ ns2 hs hc
      rcases hQ ns2 hs hc with ⟨rs, hrs, hsh⟩
      refine ⟨.node rs, ?_, ?_⟩
      · simp only [mapFormattedTpl, hrs]
        rfl
      · simp only [shape, hsh]
    · intro ns2 hs hc
      refine ⟨[], rfl, rfl⟩
    · intro k t rest hP hQ ns2 hs hc
      simp only [tplNames.go] at hs
      cases ht : tplNames t with
      | none => rw [ht] at hs; simp at hs
      | some a =>
          rw [ht] at hs
          cases hr : tplNames.go rest with
          | none => rw [hr] at hs; simp at hs
          | some b =>
              rw [hr] at hs
              simp only [Option.some_bind, Option.map_some', Option.some.injEq] at hs
              subst hs
              rcases hP a ht (fun n hn => hc n (List.mem_append_left _ hn)) with
                ⟨r, hr1, hr2⟩
              rcases hQ b hr (fun n hn => hc n (List.mem_append_right _ hn)) with
                ⟨rs, hrs1, hrs2⟩
              refine ⟨(k, r) :: rs, ?_, ?_⟩
              · simp only [mapFormattedTpl.go, hr1, hrs1, exBind_ok]
                rfl
              · simp only [shape.go, hr2, hrs2]
  exact main (.node es) ns hn hctx

/-- Witness for C4 at the spec's end-to-end template: a nested template with
placeholders id and email expands against a context holding both, with
identical shape. -/
theorem claim_C4_witness :
    tplNames (.node [("user_id", .leaf "{id}"),
        ("sub", .node [("contact", .leaf "{email}")])]) = some ["id", "email"] ∧
    (∃ r, mapFormattedTpl [("id", CellValue.num 1), ("email", CellValue.text "ann")]
        (.node [("user_id", .leaf "{id}"), ("sub", .node [("contact", .leaf "{email}")])]) =
        .ok r ∧
      shape r = shape (.node [("user_id", Template.leaf "{id}"),
        ("sub", .node [("contact", Template.leaf "{email}")])])) :=
  ⟨by decide,
    claim_C4 [("user_id", .leaf "{id}"), ("sub", .node [("contact", .leaf "{email}")])]
      [("id", CellValue.num 1), ("email", CellValue.text "ann")] ["id", "email"]
      (by decide) (by decide)⟩

/-- Scanning a run of word characters inside a field accumulates them onto
the field name. -/
theorem fmtRun_field_word (ctx : List (String × CellValue)) :
    ∀ (w : List Char), (∀ c ∈ w, isWordChar c = true) →
      ∀ (acc after : List Char),
        fmtRun ctx (.field acc) (w ++ after) = fmtRun ctx (.field (acc ++ w)) after := by
  intro w
  induction w with
  | nil => intro hw acc after; simp
  | cons c w2 ih =>
      intro hw acc after
      have hc : isWordChar c = true := hw c (List.mem_cons_self _ _)
      have hc1 : ¬ c = '}' := by
        intro h
        subst h
        simp [isWordChar] at hc
      have hc2 : ¬ c = ':' := by
        intro h
        subst h
        simp [isWordChar] at hc
      rw [List.cons_append]
      simp only [fmtRun, if_neg hc1, if_neg hc2, if_pos hc]
      rw [ih (fun d hd => hw d (List.mem_cons_of_mem _ hd)) (acc ++ [c]) after,
        List.append_assoc]
      rfl

/-- Once a field with a name absent from the context has entered its
specifier, the scan can only fail: the closing brace triggers the positional
check or the failing lookup, a nested brace is rejected, and running out of
input is an unterminated field. -/
theorem fmtRun_spec_error (ctx : List (String × CellValue)) (name : List Char)
    (hmiss : dictLookup ctx (String.mk name) = none) :
    ∀ (rs : List Char), ∃ e, fmtRun ctx (.spec name) rs = .error e := by
  intro rs
  induction rs with
  | nil => exact ⟨"ValueError: expected closing brace", rfl⟩
  | cons c rest ih =>
      by_cases hc : c = '}'
      · by_cases hdig : name.all Char.isDigit = true
        · refine ⟨"IndexError: positional replacement field with keyword-only arguments", ?_⟩
          simp only [fmtRun, if_pos hc, if_pos hdig]
        · refine ⟨"KeyError: " ++ String.mk name, ?_⟩
          simp only [fmtRun, if_pos hc, if_neg hdig, hmiss]
      · by_cases hb : c = '{'
        · refine ⟨"ValueError: unmatched brace in format spec", ?_⟩
          simp only [fmtRun, if_neg hc, if_pos hb]
        · rcases ih with ⟨e, he⟩
          refine ⟨e, ?_⟩
          simp only [fmtRun, if_neg hc, if_neg hb]
          exact he

/-- Unfolding the anchored placeholder match once the word run's boundary is
known. -/
theorem cleanLabelAux_brace (rest : List Char) (d : Char) (ds : List Char)
    (hdw : rest.dropWhile isWordChar = d :: ds) :
    cleanLabelAux ('{' :: rest) =
      (if d = '}' then some (String.mk (rest.takeWhile isWordChar))
       else if d = ':' then
         (if (ds.takeWhile (fun x => x ≠ '\n')).contains '}' then
            some (String.mk (rest.takeWhile isWordChar)) else none)
       else none) := by
  simp only [cleanLabelAux, hdw, if_true]

/-- Formatting a string whose anchored placeholder match yields a name absent
from the context raises. -/
theorem fmtRun_missing (ctx : List (String × CellValue)) (cs : List Char) (l : String)
    (hclean : cleanLabelAux cs = some l)
    (hmiss : dictLookup ctx l = none) :
    ∃ e, fmtRun ctx .lit cs = .error e := by
  cases cs with
  | nil => simp [cleanLabelAux] at hclean
  | cons c rest =>
      by_cases hc : c = '{'
      · subst hc
        have hsplit : rest.takeWhile isWordChar ++ rest.dropWhile isWordChar = rest :=
          List.takeWhile_append_dropWhile isWordChar rest
        have hword : ∀ d ∈ rest.takeWhile isWordChar, isWordChar d = true :=
          fun d hd => List.mem_takeWhile_imp hd
        cases hdw : rest.dropWhile isWordChar with
        | nil =>
            rw [show cleanLabelAux ('{' :: rest) =
              (match rest.dropWhile isWordChar with
               | d :: ds =>
                   if d = '}' then some (String.mk (rest.takeWhile isWordChar))
                   else if d = ':' then
                     (if (ds.takeWhile (fun x => x ≠ '\n')).contains '}' then
                        some (String.mk (rest.takeWhile isWordChar)) else none)
                   else none
               | [] => none) from rfl, hdw] at hclean
            simp at hclean
        | cons d ds =>
            rw [cleanLabelAux_brace rest d ds hdw] at hclean
            have hlname : l = String.mk (rest.takeWhile isWordChar) := by
              by_cases hd1 : d = '}'
              · rw [if_pos hd1] at hclean
                exact (Option.some.injEq _ _ ▸ hclean).symm
              · by_cases hd2 : d = ':'
                · rw [if_neg hd1, if_pos hd2] at hclean
                  by_cases hcon : (ds.takeWhile (fun x => x ≠ '\n')).contains '}'
                  · rw [if_pos hcon] at hclean
                    exact (Option.some.injEq _ _ ▸ hclean).symm
                  · rw [if_neg hcon] at hclean; simp at hclean
                · rw [if_neg hd1, if_neg hd2] at hclean; simp at hclean
            have hrun : fmtRun ctx .lit ('{' :: rest) = fmtRun ctx .openB rest := by
              simp only [fmtRun, if_true]
            cases hw : rest.takeWhile isWordChar with
            | nil =>
                have hrest : rest = d :: ds := by
                  rw [← hsplit, hw, hdw]
                  rfl
                by_cases hd1 : d = '}'
                · refine ⟨"IndexError: replacement field is not a plain keyword name", ?_⟩
                  rw [hrun, hrest]
                  have hdnb : ¬ d = '{' := by rw [hd1]; decide
                  have hdnw : ¬ isWordChar d = true := by rw [hd1]; decide
                  simp only [fmtRun, if_neg hdnb, if_neg hdnw]
                · by_cases hd2 : d = ':'
                  · refine ⟨"IndexError: replacement field is not a plain keyword name", ?_⟩
                    rw [hrun, hrest]
                    have hdnb : ¬ d = '{' := by rw [hd2]; decide
                    have hdnw : ¬ isWordChar d = true := by rw [hd2]; decide
                    simp only [fmtRun, if_neg hdnb, if_neg hdnw]
                  · rw [if_neg hd1, if_neg hd2] at hclean; simp at hclean
            | cons w0 wrest =>
                have hw0 : isWordChar w0 = true := by
                  have hmem0 : w0 ∈ rest.takeWhile isWordChar := by
                    rw [hw]; exact List.mem_cons_self _ _
                  exact List.mem_takeWhile_imp hmem0
                have hw0nb : ¬ w0 = '{' := by
                  intro h
                  subst h
                  simp [isWordChar] at hw0
                have hrest : rest = w0 :: (wrest ++ (d :: ds)) := by
                  rw [← hsplit, hw, hdw]
                  rfl
                have hstep : fmtRun ctx .openB rest =
                    fmtRun ctx (.field ([w0] ++ wrest)) (d :: ds) := by
                  rw [hrest]
                  simp only [fmtRun, if_neg hw0nb, if_pos hw0]
                  exact fmtRun_field_word ctx wrest
                    (fun e he => hword e (by rw [hw]; exact List.mem_cons_of_mem _ he))
                    [w0] (d :: ds)
                have hname : ([w0] ++ wrest : List Char) = rest.takeWhile isWordChar := by
                  rw [hw]
                  rfl
                have hmiss2 : dictLookup ctx (String.mk ([w0] ++ wrest)) = none := by
                  rw [hname, ← hlname]
                  exact hmiss
                by_cases hd1 : d = '}'
                · by_cases hdig : ([w0] ++ wrest).all Char.isDigit = true
                  · refine
                      ⟨"IndexError: positional replacement field with keyword-only arguments",
                        ?_⟩
                    rw [hrun, hstep]
                    simp only [fmtRun, if_pos hd1, if_pos hdig]
                  · refine ⟨"KeyError: " ++ String.mk ([w0] ++ wrest), ?_⟩
                    rw [hrun, hstep]
                    simp only [fmtRun, if_pos hd1, if_neg hdig, hmiss2]
                · by_cases hd2 : d = ':'
                  · rcases fmtRun_spec_error ctx ([w0] ++ wrest) hmiss2 ds with ⟨e, he⟩
                    refine ⟨e, ?_⟩
                    rw [hrun, hstep]
                    simp only [fmtRun, if_neg hd1, if_pos hd2]
                    exact he
                  · rw [if_neg hd1, if_neg hd2] at hclean; simp at hclean
      · rw [show cleanLabelAux (c :: rest) =
          (if c = '{' then
            (match rest.dropWhile isWordChar with
             | d :: ds =>
                 if d = '}' then some (String.mk (rest.takeWhile isWordChar))
                 else if d = ':' then
                   (if (ds.takeWhile (fun x => x ≠ '\n')).contains '}' then
                      some (String.mk (rest.takeWhile isWordChar)) else none)
                 else none
             | [] => none)
           else none) from rfl, if_neg hc] at hclean
        simp at hclean

/-- Every label returned by `extract_labels` is the `clean_label` of some
string leaf of the mapping. -/
theorem extract_labels_mem_leaf :
    ∀ (es : List (String × Template)) (L : List String) (l : String),
      extract_labels es = .ok L → l ∈ L →
      ∃ s, hasLeafEntries s es = true ∧ clean_label s = .ok l := by
  have main := templateIndList
    (fun t => ∀ L l, extractLabelsT t = .ok L → l ∈ L →
      ∃ s, hasLeaf s t = true ∧ clean_label s = .ok l)
    (fun es => ∀ L l, extractLabelsT.go es = .ok L → l ∈ L →
      ∃ s, hasLeaf.go s es = true ∧ clean_label s = .ok l)
    ?_ ?_ ?_ ?_
  · intro es L l h hm
    exact main es L l h hm
  · intro s L l h hm
    cases hcl : clean_label s with
    | error e =>
        rw [show extractLabelsT (.leaf s) = (clean_label s).map (fun x => [x]) from rfl,
          hcl] at h
        exact absurd h (by simp [Except.map])
    | ok a =>
        rw [show extractLabelsT (.leaf s) = (clean_label s).map (fun x => [x]) from rfl,
          hcl] at h
        simp only [Except.map, Except.ok.injEq] at h
        subst h
        rcases List.mem_singleton.mp hm with rfl
        exact ⟨s, by simp [hasLeaf], hcl⟩
  · intro es hQ L l h hm
    rcases hQ L l (by rw [← h]; rfl) hm with ⟨s, hs1, hs2⟩
    exact ⟨s, by rw [show hasLeaf s (.node es) = hasLeaf.go s es from rfl]; exact hs1, hs2⟩
  · intro L l h hm
    rw [show extractLabelsT.go [] = Except.ok ([] : List String) from rfl] at h
    simp only [Except.ok.injEq] at h
    subst h
    simp at hm
  · intro k t rest hP hQ L l h hm
    rw [show extractLabelsT.go ((k, t) :: rest) =
      (extractLabelsT t).bind
        (fun a => (extractLabelsT.go rest).map (fun b => a ++ b)) from rfl] at h
    cases ht : extractLabelsT t with
    | error e => rw [ht] at h; exact absurd h (by simp [Except.bind])
    | ok a =>
        rw [ht, exBind_ok] at h
        cases hr : extractLabelsT.go rest with
        | error e => rw [hr] at h; exact absurd h (by simp [Except.map])
        | ok b =>
            rw [hr] at h
            simp only [Except.map, Except.ok.injEq] at h
            subst h
            rcases List.mem_append.mp hm with hm1 | hm1
            · rcases hP a l ht hm1 with ⟨s, hs1, hs2⟩
              refine ⟨s, ?_, hs2⟩
              rw [show hasLeaf.go s ((k, t) :: rest) =
                (hasLeaf s t || hasLeaf.go s rest) from rfl, hs1]
              rfl
            · rcases hQ b l hr hm1 with ⟨s, hs1, hs2⟩
              refine ⟨s, ?_, hs2⟩
              rw [show hasLeaf.go s ((k, t) :: rest) =
                (hasLeaf s t || hasLeaf.go s rest) from rfl, hs1]
              simp

/-- A leaf whose formatting fails makes the whole expansion fail. -/
theorem mapFormattedTpl_error_of_bad_format (ctx : List (String × CellValue)) (s : String)
    (hfmt : ∃ e0, pyFormat s ctx = .error e0) :
    ∀ t, hasLeaf s t = true → ∃ e, mapFormattedTpl ctx t = .error e := by
  refine templateInd (fun t => hasLeaf s t = true → ∃ e, mapFormattedTpl ctx t = .error e)
    (fun es => hasLeaf.go s es = true → ∃ e, mapFormattedTpl.go ctx es = .error e)
    ?_ ?_ ?_ ?_
  · intro t ht
    have hts : t = s := by simpa [hasLeaf] using ht
    subst hts
    rcases hfmt with ⟨e0, he0⟩
    exact ⟨e0, by simp [mapFormattedTpl, he0, Except.map]⟩
  · intro es hQ hn
    rcases hQ (by simpa [hasLeaf] using hn) with ⟨e, he⟩
    exact ⟨e, by simp [mapFormattedTpl, he, Except.map]⟩
  · intro h
    simp [hasLeaf.go] at h
  · intro k t rest hP hQ hcons
    have hsplit2 : hasLeaf s t = true ∨ hasLeaf.go s rest = true := by
      simpa [hasLeaf.go, Bool.or_eq_true] using hcons
    rcases hsplit2 with h | h
    · rcases hP h with ⟨e, he⟩
      exact ⟨e, by simp [mapFormattedTpl.go, he, Except.bind]⟩
    · cases hval : mapFormattedTpl ctx t with
      | error e => exact ⟨e, by simp [mapFormattedTpl.go, hval, Except.bind]⟩
      | ok w =>
          rcases hQ h with ⟨e, he⟩
          exact ⟨e, by simp [mapFormattedTpl.go, hval, he, Except.bind, Except.map]⟩

/-- A member of a dict insertion is an old member or bears the inserted
key. -/
theorem mem_dictInsert_key [DecidableEq κ] :
    ∀ (d : List (κ × α)) (k : κ) (v : α) (q : κ × α),
      q ∈ dictInsert d k v → q ∈ d ∨ q.1 = k := by
  intro d
  induction d with
  | nil =>
      intro k v q h
      simp only [dictInsert, List.mem_singleton] at h
      subst h
      exact Or.inr rfl
  | cons p rest ih =>
      intro k v q h
      by_cases hp : p.1 = k
      · rw [dictInsert, if_pos hp] at h
        rcases List.mem_cons.mp h with h1 | h1
        · exact Or.inr (h1 ▸ hp)
        · exact Or.inl (List.mem_cons_of_mem _ h1)
      · rw [dictInsert, if_neg hp] at h
        rcases List.mem_cons.mp h with h1 | h1
        · exact Or.inl (h1 ▸ List.mem_cons_self _ _)
        · rcases ih k v q h1 with h2 | h2
          · exact Or.inl (List.mem_cons_of_mem _ h2)
          · exact Or.inr h2

/-- Every entry of `label_indexes` names a text cell of the header row. -/
theorem mkLabelIndexes_mem (header : List CellValue) (L : List String) :
    ∀ p ∈ mkLabelIndexes header L, CellValue.text p.1 ∈ header := by
  have aux : ∀ (hdr : List CellValue) (n : Nat) (d : List (String × Nat))
      (p : String × Nat),
      p ∈ (hdr.enumFrom n).foldl
        (fun d q =>
          match q.2 with
          | .text t => if L.contains t then dictInsert d t q.1 else d
          | _ => d) d →
      p ∈ d ∨ CellValue.text p.1 ∈ hdr := by
    intro hdr
    induction hdr with
    | nil => intro n d p h; exact Or.inl (by simpa [List.enumFrom] using h)
    | cons c rest ih =>
        intro n d p h
        simp only [List.enumFrom, List.foldl_cons] at h
        cases c with
        | text t =>
            by_cases htL : L.contains t
            · rw [show (match (n, CellValue.text t).2 with
                | CellValue.text t2 =>
                    if L.contains t2 then dictInsert d t2 (n, CellValue.text t).1 else d
                | _ => d) = dictInsert d t n from by
                  have htL2 : t ∈ L := by simpa using htL
                  simp [htL2]] at h
              rcases ih (n + 1) (dictInsert d t n) p h with h1 | h1
              · rcases mem_dictInsert_key d t n p h1 with h2 | h2
                · exact Or.inl h2
                · exact Or.inr (by rw [h2]; exact List.mem_cons_self _ _)
              · exact Or.inr (List.mem_cons_of_mem _ h1)
            · rw [show (match (n, CellValue.text t).2 with
                | CellValue.text t2 =>
                    if L.contains t2 then dictInsert d t2 (n, CellValue.text t).1 else d
                | _ => d) = d from by
                  have htL2 : t ∉ L := by simpa using htL
                  simp [htL2]] at h
              rcases ih (n + 1) d p h with h1 | h1
              · exact Or.inl h1
              · exact Or.inr (List.mem_cons_of_mem _ h1)
        | num m =>
            rcases ih (n + 1) d p h with h1 | h1
            · exact Or.inl h1
            · exact Or.inr (List.mem_cons_of_mem _ h1)
        | dt dd =>
            rcases ih (n + 1) d p h with h1 | h1
            · exact Or.inl h1
            · exact Or.inr (List.mem_cons_of_mem _ h1)
        | empty =>
            rcases ih (n + 1) d p h with h1 | h1
            · exact Or.inl h1
            · exact Or.inr (List.mem_cons_of_mem _ h1)
  intro p hp
  rcases aux header 0 [] p hp with h | h
  · simp at h
  · exact h

/-- Counterexample to C2 as stated: required label email absent from the
header, yet with zero data rows `map_formatted_data` returns the empty list
instead of failing with a label-not-found error. -/
theorem claim_C2_cex :
    map_formatted_data [[.text "id"]] [("out", .leaf "{email}")] (.int 0)
      ⟨2024, 1, 2, 3, 4, 5, 0⟩ = .ok [] := by
  decide

/-- Claim C2, amended: label resolution never pre-checks.  With at least one
data row, a required non-reserved label missing from the header makes the run
fail while processing the first data row (the expansion's lookup raises
`KeyError` naming a missing label), so no output is produced; with zero data
rows the run succeeds and returns the empty list despite the missing label. -/
theorem claim_C2 (header r : List CellValue) (rest : List (List CellValue))
    (mf : List (String × Template)) (uk : UK) (now : PyDatetime)
    (L : List String) (l : String)
    (hL : extract_labels mf = .ok L) (hmem : l ∈ L)
    (h1 : l ≠ "_row_number") (h2 : l ≠ "_now")
    (hhdr : CellValue.text l ∉ header) :
    ∃ e, map_formatted_data (header :: r :: rest) mf uk now = .error e := by
  unfold map_formatted_data
  rw [hL, exBind_ok, show pyNext (header :: r :: rest) = .ok header from rfl, exBind_ok]
  cases hU : lookupUK (mkLabelIndexes header L) uk with
  | error e => exact ⟨e, by simp [Except.bind]⟩
  | ok uki =>
      rw [exBind_ok]
      have henum : ((header :: r :: rest).enum.drop 1) =
          (1, r) :: rest.enumFrom 2 := rfl
      rw [henum, pyDictFold]
      cases hpi : pyIndex r uki with
      | error e =>
          refine ⟨e, ?_⟩
          rw [show rowKeyRecord now (mkLabelIndexes header L) mf uki (1, r) =
            .error e from by
              rw [rowKeyRecord, show (1, r).2 = r from rfl, hpi]
              rfl]
          rfl
      | ok key =>
          cases hrow : map_formatted_row now (mkLabelIndexes header L) 1 r mf with
          | error e =>
              refine ⟨e, ?_⟩
              rw [show rowKeyRecord now (mkLabelIndexes header L) mf uki (1, r) =
                .error e from by
                  rw [rowKeyRecord, show (1, r).2 = r from rfl, hpi, exBind_ok,
                    show (1, r).1 = 1 from rfl, hrow]
                  rfl]
              rfl
          | ok rec =>
              exfalso
              rw [map_formatted_row] at hrow
              cases hdr : mkDictRow (mkLabelIndexes header L) r with
              | error e => rw [hdr] at hrow; simp [Except.bind] at hrow
              | ok dr =>
                  rw [hdr, exBind_ok] at hrow
                  have hkeys : ∀ x ∈ mkLabelIndexes header L,
                      ∀ q : String × CellValue,
                        (fun p => (pyIndex r (Int.ofNat p.2)).map
                          (fun v => (p.1, v))) x = .ok q → q.1 ≠ l := by
                    intro x hx q hq
                    have hq2 : Except.map (fun v => (x.1, v))
                        (pyIndex r (Int.ofNat x.2)) = Except.ok q := hq
                    have hfst : q.1 = x.1 := by
                      cases hpx : pyIndex r (Int.ofNat x.2) with
                      | error e =>
                          rw [hpx] at hq2
                          exact absurd hq2 (by simp [Except.map])
                      | ok w =>
                          rw [hpx] at hq2
                          simp only [Except.map, Except.ok.injEq] at hq2
                          rw [← hq2]
                    rw [hfst]
                    intro hx1
                    exact hhdr (hx1 ▸ mkLabelIndexes_mem header L x hx)
                  have hdr2 : pyDictFold
                      (fun p => (pyIndex r (Int.ofNat p.2)).map (fun v => (p.1, v)))
                      (mkLabelIndexes header L) [] = .ok dr := hdr
                  have hdrnone : dictLookup dr l = none := by
                    have h0 := pyDictFold_lookup_other
                      (fun p => (pyIndex r (Int.ofNat p.2)).map (fun v => (p.1, v)))
                      (mkLabelIndexes header L) [] dr l hdr2 hkeys
                    rw [h0]
                    rfl
                  have hctxnone :
                      dictLookup (mkRowContext 1 now dr) l = none := by
                    rw [mkRowContext_lookup_other 1 now dr l h1 h2]
                    exact hdrnone
                  rcases extract_labels_mem_leaf mf L l hL hmem with ⟨s, hs1, hs2⟩
                  have hcl : cleanLabelAux s.data = some l := by
                    unfold clean_label at hs2
                    cases hca : cleanLabelAux s.data with
                    | none => rw [hca] at hs2; simp at hs2
                    | some a =>
                        rw [hca] at hs2
                        simp only [Except.ok.injEq] at hs2
                        rw [hs2]
                  rcases fmtRun_missing (mkRowContext 1 now dr) s.data l hcl hctxnone with
                    ⟨e0, he0⟩
                  have hfmt : ∃ e0, pyFormat s (mkRowContext 1 now dr) = .error e0 :=
                    ⟨e0, by rw [pyFormat, he0]; rfl⟩
                  rcases mapFormattedTpl_error_of_bad_format (mkRowContext 1 now dr) s
                    hfmt (.node mf)
                    (by rw [show hasLeaf s (.node mf) = hasLeaf.go s mf from rfl]
                        exact hs1) with ⟨e, he⟩
                  rw [he] at hrow
                  simp at hrow

/-- Witness for the amended C2: one data row and the missing label email make
the run fail. -/
theorem claim_C2_witness :
    extract_labels [("out", Template.leaf "{email}")] = .ok ["email"] ∧
    CellValue.text "email" ∉ [CellValue.text "id"] ∧
    ∃ e, map_formatted_data [[CellValue.text "id"], [CellValue.num 7]]
        [("out", Template.leaf "{email}")] (.int 0) ⟨2024, 1, 2, 3, 4, 5, 0⟩ =
      .error e :=
  ⟨by decide, by decide,
    claim_C2 [CellValue.text "id"] [CellValue.num 7] [] [("out", Template.leaf "{email}")]
      (.int 0) ⟨2024, 1, 2, 3, 4, 5, 0⟩ ["email"] "email"
      (by decide) (by decide) (by decide) (by decide) (by decide)⟩
